import Mathlib

/-! The scripts of translation-tool: the locale validator
`scripts/validate-i18n.js`, the converter `scripts/csv-to-json.js` and the
exporter `scripts/web-to-csv.js`.

A shallow embedding of the three scripts and proofs about them.

JavaScript values are embedded as the tree `JSVal`.  Strings are sequences of
UTF-16 code units, objects are lists of own properties held in the order
`Object.keys` enumerates them, together with their prototype.  The parts of the
language the scripts lean on are embedded as they behave in Node.js:

* `typeof v === 'object'` holds for `null`, for arrays and for objects;
* `Object.keys` lists array-index keys first, in ascending numeric order, and
  then the remaining keys in the order they were created;
* `Array.prototype.sort` without a comparator orders strings by code units;
* `key in obj` and `obj[key]` consult the prototype chain, and assigning to
  the key `__proto__` of a plain object runs the `__proto__` setter of
  `Object.prototype`;
* `Object.keys(null)` and `key in primitive` throw a `TypeError`.
-/

namespace TranslationTool

/-! ## Strings -/

/-- A JavaScript string: the list of its UTF-16 code units. -/
abbrev JSString := List Nat

/-- UTF-16 encoding of one Unicode scalar value. -/
def utf16Char (c : Char) : List Nat :=
  if c.toNat < 65536 then [c.toNat]
  else [55296 + (c.toNat - 65536) / 1024, 56320 + (c.toNat - 65536) % 1024]

/-- The JavaScript string written as the literal `s`. -/
def utf16 (s : String) : JSString := (s.toList.map utf16Char).flatten

/-- The separator of a key path, `"."`. -/
def dot : JSString := [46]

/-- The property name `"__proto__"`. -/
def protoKey : JSString := [95, 95, 112, 114, 111, 116, 111, 95, 95]

/-- Order of the default `Array.prototype.sort`: code unit by code unit
(`a ≤ b`). -/
def codeUnitsLe : JSString → JSString → Bool
  | [], _ => true
  | _ :: _, [] => false
  | a :: as, b :: bs => a < b || (a == b && codeUnitsLe as bs)

/-- The string `ToString(i)` for a non-negative integer `i`. -/
def indexKey (i : Nat) : JSString := (Nat.toDigits 10 i).map Char.toNat

/-- The number a string of decimal digits denotes. -/
def decimalValue (s : JSString) : Nat := s.foldl (fun n u => 10 * n + (u - 48)) 0

/-- An array index: a canonical numeric string (`ToString(ToUint32(s)) = s`)
whose value is at most `2^32 - 2`.  `Object.keys` lists such keys first. -/
def isArrayIndex (s : JSString) : Bool :=
  decide (indexKey (decimalValue s) = s) && decide (decimalValue s ≤ 4294967294)

/-! ## Values -/

/-- The error thrown by `Object.keys(null)` and by `key in primitive`. -/
inductive JSError where
  | typeError
deriving DecidableEq

/-- JavaScript values that the validator can hold.  `obj own proto` is an
object created by `JSON.parse` or by the literal `{}`: `own` lists its own
properties in enumeration order, `proto = none` says that its prototype is
`Object.prototype`, `proto = some p` that it was replaced by `p`.  A number is
carried as the bit pattern of its IEEE-754 double; the script never computes
with it.  `objectPrototype` and `arrayPrototype` are the two built-in
prototype objects, which the `__proto__` getter can hand out. -/
inductive JSVal where
  | null
  | bool (b : Bool)
  | num (bits : Nat)
  | str (s : JSString)
  | arr (items : List JSVal)
  | obj (own : List (JSString × JSVal)) (proto : Option JSVal)
  | objectPrototype
  | arrayPrototype

/-- Own properties of an object, in enumeration order. -/
abbrev Props := List (JSString × JSVal)

/-- The test `typeof v === 'object'`. -/
def typeofObject : JSVal → Bool
  | .null => true
  | .arr _ => true
  | .obj _ _ => true
  | .objectPrototype => true
  | .arrayPrototype => true
  | _ => false

/-- String-keyed properties of `Object.prototype` in Node.js. -/
def objectPrototypeNames : List JSString :=
  [utf16 "constructor", utf16 "__defineGetter__", utf16 "__defineSetter__",
   utf16 "hasOwnProperty", utf16 "__lookupGetter__", utf16 "__lookupSetter__",
   utf16 "isPrototypeOf", utf16 "propertyIsEnumerable", utf16 "toString",
   utf16 "valueOf", protoKey, utf16 "toLocaleString"]

/-- String-keyed properties of `Array.prototype` (ECMAScript 2023). -/
def arrayPrototypeNames : List JSString :=
  [utf16 "length", utf16 "constructor", utf16 "at", utf16 "concat",
   utf16 "copyWithin", utf16 "entries", utf16 "every", utf16 "fill",
   utf16 "filter", utf16 "find", utf16 "findIndex", utf16 "findLast",
   utf16 "findLastIndex", utf16 "flat", utf16 "flatMap", utf16 "forEach",
   utf16 "includes", utf16 "indexOf", utf16 "join", utf16 "keys",
   utf16 "lastIndexOf", utf16 "map", utf16 "pop", utf16 "push", utf16 "reduce",
   utf16 "reduceRight", utf16 "reverse", utf16 "shift", utf16 "slice",
   utf16 "some", utf16 "sort", utf16 "splice", utf16 "toLocaleString",
   utf16 "toReversed", utf16 "toSorted", utf16 "toSpliced", utf16 "toString",
   utf16 "unshift", utf16 "values", utf16 "with"]

/-- Whether `key` names an own property in `own`. -/
def hasOwn (own : Props) (key : JSString) : Bool := own.any (fun e => e.1 == key)

/-- The value of the own property `key`. -/
def getOwn : Props → JSString → Option JSVal
  | [], _ => none
  | (k, v) :: rest, key => if k = key then some v else getOwn rest key

/-- Whether `key` is an index of an array of `n` elements. -/
def isIndexBelow (n : Nat) (key : JSString) : Bool :=
  isArrayIndex key && decide (decimalValue key < n)

/-- The abstract operation `HasProperty` on an object: own properties first,
then the prototype chain.  At `null` the chain ends. -/
def hasProp : JSVal → JSString → Bool
  | .obj own none, key => hasOwn own key || decide (key ∈ objectPrototypeNames)
  | .obj own (some p), key => hasOwn own key || hasProp p key
  | .arr items, key =>
      isIndexBelow items.length key || decide (key ∈ arrayPrototypeNames) ||
        decide (key ∈ objectPrototypeNames)
  | .arrayPrototype, key =>
      decide (key ∈ arrayPrototypeNames) || decide (key ∈ objectPrototypeNames)
  | .objectPrototype, key => decide (key ∈ objectPrototypeNames)
  | _, _ => false

/-- The expression `key in v`: a `TypeError` unless `v` is an object. -/
def hasProperty (v : JSVal) (key : JSString) : Except JSError Bool :=
  match v with
  | .null => .error .typeError
  | .bool _ => .error .typeError
  | .num _ => .error .typeError
  | .str _ => .error .typeError
  | w => .ok (hasProp w key)

/-- The value found for `key` among the data properties that JSON content
contributes along the prototype chain: own properties of objects and elements
of arrays. -/
def findData : JSVal → JSString → Option JSVal
  | .obj own none, key => getOwn own key
  | .obj own (some p), key =>
      match getOwn own key with
      | some v => some v
      | none => findData p key
  | .arr items, key =>
      if isIndexBelow items.length key then items.get? (decimalValue key) else none
  | _, _ => none

/-- Whether the prototype chain of `v` ends in `Object.prototype` (and not in
`null`). -/
def reachesObjectPrototype : JSVal → Bool
  | .obj _ none => true
  | .obj _ (some p) => reachesObjectPrototype p
  | .arr _ => true
  | .arrayPrototype => true
  | .objectPrototype => true
  | _ => false

/-- The prototype of an object, `Object.getPrototypeOf(v)`. -/
def protoOf : JSVal → JSVal
  | .obj _ none => .objectPrototype
  | .obj _ (some p) => p
  | .arr _ => .arrayPrototype
  | .arrayPrototype => .objectPrototype
  | _ => .null

/-- The value of `v[key]` when `typeof v[key] === 'object'`, for an object
`v`; `none` when `v[key]` is `undefined`, a primitive or a function.  A data
property is found along the chain; failing that, `__proto__` resolves to the
accessor of `Object.prototype`, whose getter returns the prototype of `v`; any
other inherited built-in is a function (or the number `length`). -/
def getObject (v : JSVal) (key : JSString) : Option JSVal :=
  match findData v key with
  | some w => if typeofObject w then some w else none
  | none => if key = protoKey && reachesObjectPrototype v then some (protoOf v) else none

/-! ## Building objects -/

/-- Replace the value of the existing own property `key`; its position is
kept. -/
def replaceProp (own : Props) (key : JSString) (v : JSVal) : Props :=
  own.map (fun e => if e.1 = key then (e.1, v) else e)

/-- Create the array-index property `key`: it is enumerated after the array
indices of smaller value and before everything else. -/
def addIndexProp : Props → JSString → JSVal → Props
  | [], key, v => [(key, v)]
  | e :: rest, key, v =>
      if isArrayIndex e.1 && decide (decimalValue e.1 < decimalValue key) then
        e :: addIndexProp rest key v
      else (key, v) :: e :: rest

/-- Create the own property `key`, absent so far: an array index goes to its
numeric position, any other key to the end. -/
def addProp (own : Props) (key : JSString) (v : JSVal) : Props :=
  if isArrayIndex key then addIndexProp own key v else own ++ [(key, v)]

/-- The assignment `acc[key] = v`, on an object `acc` that started as `{}`
and has only been assigned to: the accumulator of the `reduce` of
`sortObject`, and `jsonData` and `sortedJson` of the converter.  An own
property is overwritten.  Otherwise `__proto__` resolves to the accessor
of `Object.prototype`, whose setter replaces the prototype of `acc` when `v`
is an object or `null` and does nothing for any other `v`; and every other
key is created as an own property. -/
def setProp : JSVal → JSString → JSVal → JSVal
  | .obj own proto, key, v =>
      if hasOwn own key then .obj (replaceProp own key v) proto
      else if key = protoKey then
        if typeofObject v then .obj own (some v) else .obj own proto
      else .obj (addProp own key v) proto
  | w, _, _ => w

/-- The keys sorted by `Object.keys(obj).sort()`, each with the value the
callback stores for it. -/
def sortByKey (es : Props) : Props :=
  es.insertionSort (fun a b => codeUnitsLe a.1 b.1 = true)

/-- The `reduce` of line 14 over the sorted keys, from the accumulator `{}`;
`es` pairs every key with the value to store. -/
def reduceSorted (es : Props) : JSVal :=
  (sortByKey es).foldl (fun acc e => setProp acc e.1 e.2) (.obj [] none)

/-- The properties `Object.keys` lists for a string: one per code unit. -/
def stringEntries : JSString → Nat → Props
  | [], _ => []
  | u :: rest, i => (indexKey i, .str [u]) :: stringEntries rest (i + 1)

/-! ## `readAndSortJson` -/

mutual
/-- The function `sortObject` of lines 13-18.  `Object.keys(obj)` throws on
`null`, lists the own properties of an object, the indices of an array or of a
string, and nothing for the other primitives.  The value stored for a key is
`sortObject(obj[key])` when `typeof obj[key] === 'object'` and `obj[key]`
otherwise; `sortProps` and `sortItems` compute these values entry by entry,
and `reduceSorted` then assigns them in sorted key order. -/
def sortObject : JSVal → Except JSError JSVal
  | .null => .error .typeError
  | .obj own _ => do
      let rebuilt ← sortProps own
      pure (reduceSorted rebuilt)
  | .arr items => do
      let rebuilt ← sortItems items 0
      pure (reduceSorted rebuilt)
  | .str s => pure (reduceSorted (stringEntries s 0))
  | _ => pure (.obj [] none)
/-- The values `sortObject` stores for the own properties of an object. -/
def sortProps : Props → Except JSError Props
  | [] => pure []
  | (key, v) :: rest => do
      let v' ← if typeofObject v then sortObject v else pure v
      let rest' ← sortProps rest
      pure ((key, v') :: rest')
/-- The values `sortObject` stores for the elements of an array, from index
`i` on. -/
def sortItems : List JSVal → Nat → Except JSError Props
  | [], _ => pure []
  | v :: rest, i => do
      let v' ← if typeofObject v then sortObject v else pure v
      let rest' ← sortItems rest (i + 1)
      pure ((indexKey i, v') :: rest')
end

/-- The function `readAndSortJson` of lines 8-21, applied to the value
`JSON.parse` returned for the file. -/
def readAndSortJson (jsonData : JSVal) : Except JSError JSVal := sortObject jsonData

/-! ## `compareKeys` -/

/-- The template of line 39: `parentKey ? parentKey + "." + key : key`.  The
empty string is the only falsy string. -/
def fullKey (parentKey key : JSString) : JSString :=
  if parentKey = [] then key else parentKey ++ dot ++ key

mutual
/-- The function `compareKeys` of lines 37-46, with the array `missingKeys`
it pushes to passed in and returned.  `Object.keys(baseObj)` throws on `null`;
for an object, an array or a string the callback runs once per key. -/
def compareKeys : JSVal → JSVal → JSString → List JSString → Except JSError (List JSString)
  | .null, _, _, _ => .error .typeError
  | .obj own _, targetObj, parentKey, missingKeys =>
      compareProps own targetObj parentKey missingKeys
  | .arr items, targetObj, parentKey, missingKeys =>
      compareItems items 0 targetObj parentKey missingKeys
  | .str s, targetObj, parentKey, missingKeys =>
      (stringEntries s 0).foldlM
        (fun missing e => do
          let present ← hasProperty targetObj e.1
          pure (if present then missing else missing ++ [fullKey parentKey e.1]))
        missingKeys
  | _, _, _, missingKeys => pure missingKeys
/-- The callback of lines 38-45 run over the own properties of an object. -/
def compareProps : Props → JSVal → JSString → List JSString → Except JSError (List JSString)
  | [], _, _, missingKeys => pure missingKeys
  | (key, baseVal) :: rest, targetObj, parentKey, missingKeys => do
      let present ← hasProperty targetObj key
      let missing ←
        if !present then pure (missingKeys ++ [fullKey parentKey key])
        else if typeofObject baseVal then
          match getObject targetObj key with
          | some targetVal => compareKeys baseVal targetVal (fullKey parentKey key) missingKeys
          | none => pure missingKeys
        else pure missingKeys
      compareProps rest targetObj parentKey missing
/-- The callback of lines 38-45 run over the elements of an array, from index
`i` on. -/
def compareItems : List JSVal → Nat → JSVal → JSString → List JSString →
    Except JSError (List JSString)
  | [], _, _, _, missingKeys => pure missingKeys
  | baseVal :: rest, i, targetObj, parentKey, missingKeys => do
      let present ← hasProperty targetObj (indexKey i)
      let missing ←
        if !present then pure (missingKeys ++ [fullKey parentKey (indexKey i)])
        else if typeofObject baseVal then
          match getObject targetObj (indexKey i) with
          | some targetVal =>
              compareKeys baseVal targetVal (fullKey parentKey (indexKey i)) missingKeys
          | none => pure missingKeys
        else pure missingKeys
      compareItems rest (i + 1) targetObj parentKey missing
end

/-! ## Dictionaries and key paths -/

/-- A leaf of a dictionary: a string, a number or a boolean. -/
def isLeaf : JSVal → Bool
  | .str _ => true
  | .num _ => true
  | .bool _ => true
  | _ => false

mutual
/-- A nested dictionary: an object with pairwise distinct keys whose values
are leaves or nested dictionaries, and whose prototype is `Object.prototype`
or again a nested dictionary.  It holds neither `null` nor an array. -/
def isDict : JSVal → Bool
  | .obj own none => decide ((own.map Prod.fst).Nodup) && dictProps own
  | .obj own (some p) => decide ((own.map Prod.fst).Nodup) && dictProps own && isDict p
  | _ => false
/-- Every value of the property list is a leaf or a nested dictionary. -/
def dictProps : Props → Bool
  | [] => true
  | (_, v) :: rest => (isLeaf v || isDict v) && dictProps rest
end

mutual
/-- No object reached through own properties has an own property named
`__proto__`. -/
def noProtoKey : JSVal → Bool
  | .obj own _ => noProtoKeyProps own
  | _ => true
/-- No key of the list is `__proto__`, and `noProtoKey` holds of every
value. -/
def noProtoKeyProps : Props → Bool
  | [] => true
  | (key, v) :: rest => decide (key ≠ protoKey) && noProtoKey v && noProtoKeyProps rest
end

mutual
/-- A nested dictionary as `JSON.parse` returns it: a nested dictionary whose
prototype is `Object.prototype` at every level. -/
def isPlainDict : JSVal → Bool
  | .obj own none => decide ((own.map Prod.fst).Nodup) && plainProps own
  | _ => false
/-- Every value of the property list is a leaf or a nested dictionary as
`JSON.parse` returns it. -/
def plainProps : Props → Bool
  | [] => true
  | (_, v) :: rest => (isLeaf v || isPlainDict v) && plainProps rest
end

mutual
/-- No object reached through own properties has an own property whose name
is also a property of `Object.prototype`. -/
def noInheritedKey : JSVal → Bool
  | .obj own _ => noInheritedKeyProps own
  | _ => true
/-- No key of the list is a property of `Object.prototype`, and
`noInheritedKey` holds of every value. -/
def noInheritedKeyProps : Props → Bool
  | [] => true
  | (key, v) :: rest =>
      decide (key ∉ objectPrototypeNames) && noInheritedKey v && noInheritedKeyProps rest
end

/-- The keys `Object.keys` lists for an object. -/
def ownKeys : JSVal → List JSString
  | .obj own _ => own.map Prod.fst
  | _ => []

/-- The path `compareKeys` builds for the keys `ks` below `parentKey`: one
application of the template of line 39 per key. -/
def pathOf (parentKey : JSString) (ks : List JSString) : JSString :=
  ks.foldl fullKey parentKey

/-- Follow the keys `ks` down both objects: each key must be an own key of
the base object, satisfy `key in target`, and have a value with
`typeof ... === 'object'` on both sides.  The result is the pair of objects
reached. -/
def descend : JSVal → JSVal → List JSString → Option (JSVal × JSVal)
  | b, t, [] => some (b, t)
  | .obj own _, t, key :: ks =>
      match getOwn own key with
      | some baseVal =>
          if hasProp t key && typeofObject baseVal then
            match getObject t key with
            | some targetVal => descend baseVal targetVal ks
            | none => none
          else none
      | none => none
  | _, _, _ :: _ => none

/-! ## `checkTranslations` -/

/-- What the two locale files hold: the JSON documents of `locales/en.json`
and of `locales/zh.json`. -/
structure Disk where
  baseFile : JSVal
  targetFile : JSVal

/-- How a run of the script ends. -/
inductive Status where
  | completed
  | exited (code : Nat)
  | uncaught (e : JSError)

/-- The exit status of the process: `0` after a normal completion, the
argument of `process.exit`, and `1` after an uncaught exception. -/
def Status.exitCode : Status → Nat
  | .completed => 0
  | .exited code => code
  | .uncaught _ => 1

/-- The result of a run: how it ended, the missing keys it logged, and the
files as they are left. -/
structure Run where
  status : Status
  logged : List JSString
  disk : Disk

mutual
/-- The own content of a value: the value with every replaced prototype put
back to `Object.prototype`.  Keys, their order and the leaves stay. -/
def ownContent : JSVal → JSVal
  | .obj own _ => .obj (ownContentProps own) none
  | .arr items => .arr (ownContentItems items)
  | .objectPrototype => .obj [] none
  | .arrayPrototype => .arr []
  | v => v
/-- The own content of the values of a property list. -/
def ownContentProps : Props → Props
  | [] => []
  | (key, v) :: rest => (key, ownContent v) :: ownContentProps rest
/-- The own content of the elements of an array. -/
def ownContentItems : List JSVal → List JSVal
  | [] => []
  | v :: rest => ownContent v :: ownContentItems rest
end

/-- The number that `JSON.stringify` writes for the double with the bit
pattern `bits`, read back: `null` for an infinity or a NaN (exponent bits all
set), `0` for `-0`, and the number itself otherwise. -/
def writtenNumber (bits : Nat) : JSVal :=
  if (bits / 4503599627370496) % 2048 = 2047 then .null
  else if bits = 9223372036854775808 then .num 0
  else .num bits

mutual
/-- The document of the text `JSON.stringify(v, null, 2)`, as `JSON.parse`
reads it back: own properties only, in enumeration order; a prototype is not
written. -/
def jsonDocument : JSVal → JSVal
  | .obj own _ => .obj (jsonDocumentProps own) none
  | .arr items => .arr (jsonDocumentItems items)
  | .num bits => writtenNumber bits
  | .objectPrototype => .obj [] none
  | .arrayPrototype => .arr []
  | v => v
/-- The documents written for the values of a property list. -/
def jsonDocumentProps : Props → Props
  | [] => []
  | (key, v) :: rest => (key, jsonDocument v) :: jsonDocumentProps rest
/-- The documents written for the elements of an array. -/
def jsonDocumentItems : List JSVal → List JSVal
  | [] => []
  | v :: rest => jsonDocument v :: jsonDocumentItems rest
end

/-- The call `checkTranslations("en", "zh")` of line 67, on the documents the
two files hold.  An exception of `readAndSortJson` or `compareKeys` is not
caught; `process.exit(1)` of line 53 ends the run before the writes of lines
59-60. -/
def checkTranslations (disk : Disk) : Run :=
  match readAndSortJson disk.baseFile with
  | .error e => ⟨.uncaught e, [], disk⟩
  | .ok baseData =>
      match readAndSortJson disk.targetFile with
      | .error e => ⟨.uncaught e, [], disk⟩
      | .ok targetData =>
          match compareKeys baseData targetData [] [] with
          | .error e => ⟨.uncaught e, [], disk⟩
          | .ok missingKeys =>
              if missingKeys.length > 0 then ⟨.exited 1, missingKeys, disk⟩
              else ⟨.completed, [], ⟨jsonDocument baseData, jsonDocument targetData⟩⟩

/-! ## What `compareKeys` reports -/

/-- The path `p` is reported below `parentKey` for the objects `b` and `t`:
some keys `ks` lead down both objects, as `descend` follows them, to a pair of
objects `b'` and `t'`, and `p` is the path of `ks` followed by an own key `k`
of `b'` for which `k in t'` is false. -/
def Reported (b t : JSVal) (parentKey p : JSString) : Prop :=
  ∃ ks k b' t', descend b t ks = some (b', t') ∧ k ∈ ownKeys b' ∧ hasProp t' k = false ∧
    p = pathOf parentKey (ks ++ [k])

/-- The path `p` is reported on account of the property `key` of the base
object, whose value is `baseVal`: either `key in t` is false and `p` is the
path of `key`, or both values are objects and `p` is reported for them. -/
def EntryReports (key : JSString) (baseVal t : JSVal) (parentKey p : JSString) : Prop :=
  (hasProp t key = false ∧ p = fullKey parentKey key) ∨
    (hasProp t key = true ∧ typeofObject baseVal = true ∧
      ∃ tv, getObject t key = some tv ∧ Reported baseVal tv (fullKey parentKey key) p)

/-- A value `sortObject` stores: a leaf, or a nested dictionary without a key
`__proto__`. -/
def GoodVal (v : JSVal) : Prop :=
  isLeaf v = true ∨ (isDict v = true ∧ noProtoKey v = true)

/-- The accumulator of the `reduce`: an object with distinct keys, none of
them `__proto__`, holding such values, whose prototype is `Object.prototype`
or a nested dictionary. -/
def GoodObj (a : JSVal) : Prop :=
  ∃ own proto, a = .obj own proto ∧ (own.map Prod.fst).Nodup ∧
    (∀ e ∈ own, e.1 ≠ protoKey ∧ GoodVal e.2) ∧ ∀ p, proto = some p → isDict p = true

/-! ## Enumeration order -/

/-- The order in which `Object.keys` lists two distinct keys of one object
that was built by assigning its keys in ascending code-unit order: array
indices come first, by numeric value; the other keys follow, by code units. -/
def enumeratesBefore (a b : JSString) : Bool :=
  if isArrayIndex a then
    if isArrayIndex b then decide (decimalValue a < decimalValue b) else true
  else
    if isArrayIndex b then false else codeUnitsLe a b && decide (a ≠ b)

mutual
/-- An object as `sortObject` leaves it, at every level: the own keys are in
the order `enumeratesBefore`, none of them is `__proto__`, and every value is
a leaf or again such an object. -/
def isSorted : JSVal → Bool
  | .obj own _ =>
      decide ((own.map Prod.fst).Pairwise (fun a b => enumeratesBefore a b = true)) &&
        isSortedProps own
  | _ => false
/-- No key of the list is `__proto__` and every value is a leaf or an object
as `sortObject` leaves it. -/
def isSortedProps : Props → Bool
  | [] => true
  | (key, v) :: rest =>
      decide (key ≠ protoKey) && (isLeaf v || isSorted v) && isSortedProps rest
end

/-- The accumulator of the `reduce` while the keys arrive in sorted order:
its own keys are in enumeration order, none of them is `__proto__`, and `P`
holds of its values. -/
def OrderedObj (P : JSVal → Prop) (a : JSVal) : Prop :=
  ∃ own proto, a = .obj own proto ∧
    (own.map Prod.fst).Pairwise (fun x y => enumeratesBefore x y = true) ∧
    ∀ e ∈ own, e.1 ≠ protoKey ∧ P e.2

/-- A leaf, or an object as `sortObject` leaves it. -/
def SortedVal (v : JSVal) : Prop := isLeaf v = true ∨ isSorted v = true

/-! ## Sample locale files -/

/-- The string leaf written as the literal `s`. -/
def leaf (s : String) : JSVal := .str (utf16 s)

/-- The base dictionary `{"a":"1","b":{"c":"2"}}`. -/
def nestedBase : JSVal :=
  .obj [(utf16 "a", leaf "1"), (utf16 "b", .obj [(utf16 "c", leaf "2")] none)] none

/-- The target dictionary `{"a":"x"}`. -/
def flatTarget : JSVal := .obj [(utf16 "a", leaf "x")] none

/-- The target dictionary `{"a":"x","b":"y"}`: `b` is a string here. -/
def mismatchTarget : JSVal := .obj [(utf16 "a", leaf "x"), (utf16 "b", leaf "y")] none

/-- The base dictionary `{"toString":"x"}`. -/
def toStringBase : JSVal := .obj [(utf16 "toString", leaf "x")] none

/-- The empty dictionary `{}`. -/
def emptyDict : JSVal := .obj [] none

/-- The base dictionary `{"":{"a":"1"}}`, whose only key is the empty
string. -/
def emptyKeyBase : JSVal := .obj [([], .obj [(utf16 "a", leaf "1")] none)] none

/-- The target dictionary `{"":{}}`. -/
def emptyKeyTarget : JSVal := .obj [([], .obj [] none)] none

/-- The document `{"__proto__":{"__proto__":{"a":"1"}}}` as `JSON.parse`
returns it, with `__proto__` as an own property. -/
def protoChainBase : JSVal :=
  .obj [(protoKey, .obj [(protoKey, .obj [(utf16 "a", leaf "1")] none)] none)] none

/-- The files `{"b":"1","a":"2"}` and `{"a":"x"}`: the target lacks `b`, and
the base is not sorted. -/
def failingDisk : Disk :=
  ⟨.obj [(utf16 "b", leaf "1"), (utf16 "a", leaf "2")] none, flatTarget⟩

/-- The files `{"b":"1","a":"2"}` and `{"b":"x","a":"y"}`: the target is
complete, and neither file is sorted. -/
def completeDisk : Disk :=
  ⟨.obj [(utf16 "b", leaf "1"), (utf16 "a", leaf "2")] none,
   .obj [(utf16 "b", leaf "x"), (utf16 "a", leaf "y")] none⟩

/-- The dictionary `{"9":"a","10":"b"}`; `JSON.parse` lists `9` first
whichever way the file is written. -/
def digitKeys : JSVal := .obj [(utf16 "9", leaf "a"), (utf16 "10", leaf "b")] none

/-- The dictionary `{"tags":["b","a"]}`. -/
def withArray : JSVal := .obj [(utf16 "tags", .arr [leaf "b", leaf "a"])] none

/-- The dictionary `{"b":"1","a":["x","y"]}`. -/
def arrayLeaf : JSVal :=
  .obj [(utf16 "b", leaf "1"), (utf16 "a", .arr [leaf "x", leaf "y"])] none

mutual
/-- The key paths of a dictionary in which arrays are leaves: one path per
key at every level, segments joined by `"."`. -/
def keyPaths : JSVal → List JSString
  | .obj own _ => keyPathsProps own
  | _ => []
/-- The key paths contributed by a property list. -/
def keyPathsProps : Props → List JSString
  | [] => []
  | (key, v) :: rest =>
      (key :: (keyPaths v).map (fun p => key ++ dot ++ p)) ++ keyPathsProps rest
end

/-- The document `{"__proto__":"x","a":"1"}` as `JSON.parse` returns it. -/
def protoLeaf : JSVal := .obj [(protoKey, leaf "x"), (utf16 "a", leaf "1")] none

/-- Follow the keys `ks` down both dictionaries, in the words of the
specification: each key must be a key of both, with a nested dictionary as
its value on both sides.  The result is the pair of dictionaries reached. -/
def descendOwn : JSVal → JSVal → List JSString → Option (JSVal × JSVal)
  | b, t, [] => some (b, t)
  | .obj baseOwn _, .obj targetOwn _, key :: ks =>
      match getOwn baseOwn key, getOwn targetOwn key with
      | some baseVal, some targetVal =>
          if isPlainDict baseVal && isPlainDict targetVal then descendOwn baseVal targetVal ks
          else none
      | _, _ => none
  | _, _, _ :: _ => none

/-! ## Null-free values -/

mutual
/-- No value reached through own properties and array elements is `null`. -/
def nullFree : JSVal → Bool
  | .null => false
  | .obj own _ => nullFreeProps own
  | .arr items => nullFreeItems items
  | _ => true
/-- No value of the property list holds `null`. -/
def nullFreeProps : Props → Bool
  | [] => true
  | (_, v) :: rest => nullFree v && nullFreeProps rest
/-- No element of the array holds `null`. -/
def nullFreeItems : List JSVal → Bool
  | [] => true
  | v :: rest => nullFree v && nullFreeItems rest
end

/-! ## Targets with more keys -/

/-- Two leaves are the same string, number or boolean. -/
def sameLeaf : JSVal → JSVal → Bool
  | .str a, .str b => a == b
  | .num a, .num b => a == b
  | .bool a, .bool b => a == b
  | _, _ => false

mutual
/-- The dictionary `t'` is `t` with keys added, at any level: every key of
`t` is a key of `t'`, a leaf of `t` is the same leaf in `t'`, and a nested
dictionary of `t` is extended by the value `t'` holds for the key. -/
def extendsDict : JSVal → JSVal → Bool
  | .obj own none, .obj own' none => extendsProps own own'
  | _, _ => false
/-- Every property of the list is kept, or extended, in `own'`. -/
def extendsProps : Props → Props → Bool
  | [], _ => true
  | (key, v) :: rest, own' =>
      (match getOwn own' key with
       | some v' => if typeofObject v then extendsDict v v' else sameLeaf v v'
       | none => false) && extendsProps rest own'
end

/-- The keys `keys` lead down the dictionary: the first is a key of it, and
each later one a key of the nested dictionary the keys before it lead to. -/
def hasKeyPath : JSVal → List JSString → Bool
  | _, [] => false
  | .obj own _, [key] => hasOwn own key
  | .obj own _, key :: next :: more =>
      match getOwn own key with
      | some v => hasKeyPath v (next :: more)
      | none => false
  | _, _ :: _ => false

/-- Two values hold the same entries: they are the same value, or two objects
with the prototype `Object.prototype` that have the same keys, in whatever
order, and for every key hold values with the same entries. -/
inductive SameEntries : JSVal → JSVal → Prop where
  | same (v : JSVal) : SameEntries v v
  | obj (own own' : Props) :
      (∀ key, getOwn own key = none ↔ getOwn own' key = none) →
      (∀ key v v', getOwn own key = some v → getOwn own' key = some v' → SameEntries v v') →
      SameEntries (.obj own none) (.obj own' none)

/-! ## The converter `csv-to-json.js` -/

/-- White space and line terminators, the code units `trim` strips. -/
def isTrimmed (u : Nat) : Bool :=
  decide (u ∈ [9, 10, 11, 12, 13, 32, 160, 5760, 8232, 8233, 8239, 8287, 12288, 65279]) ||
    (decide (8192 ≤ u) && decide (u ≤ 8202))

/-- The method `String.prototype.trim`. -/
def trim (s : JSString) : JSString :=
  ((s.dropWhile isTrimmed).reverse.dropWhile isTrimmed).reverse

/-- A row as `csv-parser` hands it to the `data` handler, with all three
columns present: the cells `row["Key"]`, `row["English Value"]` and
`row["Chinese Value"]`. -/
structure Row where
  key : JSString
  english : JSString
  chinese : JSString

/-- The conversion `ToBoolean`: the falsy values are `null`, `false`, `0`,
`-0`, `NaN` and the empty string. -/
def isTruthy : JSVal → Bool
  | .null => false
  | .bool b => b
  | .num bits =>
      !(decide (bits = 0) || decide (bits = 9223372036854775808) ||
        (decide ((bits / 4503599627370496) % 2048 = 2047) &&
          decide (bits % 4503599627370496 ≠ 0)))
  | .str s => decide (s ≠ [])
  | _ => true

/-- Whether `obj[key]` is truthy: the value of a data property found along
the prototype chain decides; failing that, a name of `Object.prototype`
resolves to a function, or for `__proto__` to the prototype object, which are
truthy; any other key gives `undefined`. -/
def truthyAt (obj : JSVal) (key : JSString) : Bool :=
  match findData obj key with
  | some w => isTruthy w
  | none => decide (key ∈ objectPrototypeNames) && reachesObjectPrototype obj

/-- The own properties of an object. -/
def ownProps : JSVal → Props
  | .obj own _ => own
  | _ => []

/-- The two module variables of the converter, lines 15-16. -/
structure ConvState where
  jsonData : JSVal
  orderedKeys : List JSString

/-- The value `chineseValue || englishValue` of line 26 for a row. -/
def chosenValue (row : Row) : JSString :=
  if trim row.chinese ≠ [] then trim row.chinese else trim row.english

/-- The `data` handler of lines 20-29. -/
def onData (st : ConvState) (row : Row) : ConvState :=
  let key := trim row.key
  let englishValue := trim row.english
  let chineseValue := trim row.chinese
  if !truthyAt st.jsonData key then
    ⟨setProp st.jsonData key (.str (if chineseValue ≠ [] then chineseValue else englishValue)),
      st.orderedKeys ++ [key]⟩
  else st

/-- The `reduce` of lines 32-35: `acc[key] = jsonData[key]` for the keys of
`orderedKeys` in turn, from `{}`.  Every key of `orderedKeys` was assigned in
`jsonData`, so `jsonData[key]` is an own property of it. -/
def sortedJson (st : ConvState) : JSVal :=
  st.orderedKeys.foldl
    (fun acc key =>
      match getOwn (ownProps st.jsonData) key with
      | some v => setProp acc key v
      | none => acc)
    (.obj [] none)

/-- The converter on the rows of the CSV file: the `data` handler runs once
per row, from `jsonData = {}` and `orderedKeys = []`, and the `end` handler
builds `sortedJson`, the dictionary written to the JSON file. -/
def csvToJson (rows : List Row) : JSVal :=
  sortedJson (rows.foldl onData ⟨.obj [] none, []⟩)

/-- Whether some row carries the key, once trimmed. -/
def occursIn (rows : List Row) (key : JSString) : Bool :=
  rows.any (fun row => trim row.key == key)

/-- The value of the first row that carries the key and whose chosen value is
not empty; the empty string when there is no such row. -/
def firstNonEmpty (rows : List Row) (key : JSString) : JSString :=
  match rows.find? (fun row => trim row.key == key && decide (chosenValue row ≠ [])) with
  | some row => chosenValue row
  | none => []

/-- What the converter holds for a key after the rows: the value
`firstNonEmpty` for a key that some row carries and that is not the name of a
property of `Object.prototype`, and nothing for any other key. -/
def storedValue (rows : List Row) (key : JSString) : Option JSVal :=
  if occursIn rows key && decide (key ∉ objectPrototypeNames) then
    some (.str (firstNonEmpty rows key))
  else none

/-- The keys of the rows, trimmed, each at its first occurrence. -/
def firstOccurrences (rows : List Row) : List JSString :=
  (rows.map (fun row => trim row.key)).eraseDups

/-! ## The exporter `web-to-csv.js` -/

/-- The properties `Object.entries` lists for an array, from index `i` on. -/
def itemEntries : List JSVal → Nat → Props
  | [], _ => []
  | v :: rest, i => (indexKey i, v) :: itemEntries rest (i + 1)

/-- The keys a `for ... in` loop visits: the own enumerable keys, then the
enumerable keys of a replaced prototype that are not shadowed (the built-in
prototypes have no enumerable property). -/
def forInKeys : JSVal → List JSString
  | .obj own none => own.map Prod.fst
  | .obj own (some p) => own.map Prod.fst ++ (forInKeys p).filter (fun key => !hasOwn own key)
  | .arr items => (itemEntries items 0).map Prod.fst
  | .str s => (stringEntries s 0).map Prod.fst
  | _ => []

/-- The loop of lines 15-20 over the keys visited, on the set `keysSet` and the
array `duplicateKeys`; a key already in the set is pushed as a duplicate. -/
def duplicateScan (keys : List JSString) : List JSString × List JSString :=
  keys.foldl
    (fun st key =>
      (if key ∈ st.1 then st.1 else st.1 ++ [key],
       if key ∈ st.1 then st.2 ++ [key] else st.2))
    ([], [])

/-- The call `Object.entries(jsonData)`; it throws on `null`. -/
def objectEntries : JSVal → Except JSError Props
  | .null => .error .typeError
  | .obj own _ => .ok own
  | .arr items => .ok (itemEntries items 0)
  | .str s => .ok (stringEntries s 0)
  | _ => .ok []

mutual
/-- The conversion `ToString` of a template literal, given the conversion
`numberToString` of numbers.  An object gives `[object Object]`, unless a data
property `toString` shadows the method, which leaves no callable conversion;
an array gives its elements joined by commas. -/
def templateString (numberToString : Nat → JSString) : JSVal → Except JSError JSString
  | .null => .ok (utf16 "null")
  | .bool true => .ok (utf16 "true")
  | .bool false => .ok (utf16 "false")
  | .num bits => .ok (numberToString bits)
  | .str s => .ok s
  | .arr items => joinItems numberToString items
  | .obj own proto =>
      match findData (.obj own proto) (utf16 "toString") with
      | some _ => .error .typeError
      | none => .ok (utf16 "[object Object]")
  | .objectPrototype => .ok (utf16 "[object Object]")
  | .arrayPrototype => .ok []
/-- The method `Array.prototype.join` with the separator `","`: `null` gives
the empty string. -/
def joinItems (numberToString : Nat → JSString) : List JSVal → Except JSError JSString
  | [] => .ok []
  | [.null] => .ok []
  | [v] => templateString numberToString v
  | .null :: rest => do
      let tail ← joinItems numberToString rest
      pure (utf16 "," ++ tail)
  | v :: rest => do
      let head ← templateString numberToString v
      let tail ← joinItems numberToString rest
      pure (head ++ utf16 "," ++ tail)
end

/-- The template of line 31 for one entry. -/
def csvRow (numberToString : Nat → JSString) (e : JSString × JSVal) : Except JSError JSString := do
  let value ← templateString numberToString e.2
  pure (utf16 "\"" ++ e.1 ++ utf16 "\",\"" ++ value ++ utf16 "\",\"\"")

/-- The header of line 35. -/
def csvHeader : JSString := utf16 "\"Key\",\"English Value\",\"Chinese Value\"\n"

/-- The text `csvFinal` of lines 30-36: the header and the rows joined by
line feeds. -/
def csvFinal (numberToString : Nat → JSString) (jsonData : JSVal) : Except JSError JSString := do
  let entries ← objectEntries jsonData
  let rows ← entries.mapM (csvRow numberToString)
  pure (csvHeader ++ [10].intercalate rows)

/-- What a run of the exporter leaves: the duplicate keys found, whether the
warning of line 24 was logged, and the text written to the CSV file, if the
`try` block got that far. -/
structure Export where
  duplicateKeys : List JSString
  warned : Bool
  written : Option JSString

/-- The exporter, lines 7-46, on the value `JSON.parse` returned.  An
exception is caught on line 44 and nothing is written. -/
def exportCsv (numberToString : Nat → JSString) (jsonData : JSVal) : Export :=
  let duplicateKeys := (duplicateScan (forInKeys jsonData)).2
  ⟨duplicateKeys, decide (duplicateKeys.length > 0),
    match csvFinal numberToString jsonData with
    | .ok text => some text
    | .error _ => none⟩

/-! ## Sample rows and dictionaries -/

/-- The row written with the three literals. -/
def row (key english chinese : String) : Row := ⟨utf16 key, utf16 english, utf16 chinese⟩

/-- The base dictionary `{"b":{"c":"2"}}`. -/
def childBase : JSVal := .obj [(utf16 "b", .obj [(utf16 "c", leaf "2")] none)] none

/-- The target dictionary `{"b":{}}`: the empty dictionary with the key `b`
added. -/
def childTarget : JSVal := .obj [(utf16 "b", .obj [] none)] none

/-- The target document `{"__proto__":{"a":"y"}}` as `JSON.parse` returns
it. -/
def protoTarget : JSVal := .obj [(protoKey, .obj [(utf16 "a", leaf "y")] none)] none

/-- The base dictionary `{"a":"x"}`. -/
def singleBase : JSVal := .obj [(utf16 "a", leaf "x")] none

/-- The base dictionary `{"toString":{"c":"2"}}`. -/
def toStringParent : JSVal :=
  .obj [(utf16 "toString", .obj [(utf16 "c", leaf "2")] none)] none

/-! ## Own properties -/

theorem hasOwn_iff (own : Props) (key : JSString) :
    hasOwn own key = true ↔ key ∈ own.map Prod.fst := by
  induction own with
  | nil => simp [hasOwn]
  | cons e rest ih =>
      simp only [hasOwn, List.any_cons, Bool.or_eq_true, beq_iff_eq, List.map_cons,
        List.mem_cons] at ih ⊢
      rw [ih]
      constructor
      · rintro (h | h)
        · exact Or.inl h.symm
        · exact Or.inr h
      · rintro (h | h)
        · exact Or.inl h.symm
        · exact Or.inr h

theorem getOwn_mem {own : Props} {key : JSString} {v : JSVal}
    (h : getOwn own key = some v) : (key, v) ∈ own := by
  induction own with
  | nil => simp [getOwn] at h
  | cons e rest ih =>
      obtain ⟨k, w⟩ := e
      by_cases hk : k = key
      · simp [getOwn, hk] at h
        simp [hk, h]
      · simp [getOwn, hk] at h
        exact List.mem_cons_of_mem _ (ih h)

theorem getOwn_of_mem {own : Props} {key : JSString} {v : JSVal}
    (hn : (own.map Prod.fst).Nodup) (h : (key, v) ∈ own) : getOwn own key = some v := by
  induction own with
  | nil => simp at h
  | cons e rest ih =>
      obtain ⟨k, w⟩ := e
      simp only [List.map_cons, List.nodup_cons] at hn
      rcases List.mem_cons.1 h with h | h
      · cases h
        simp [getOwn]
      · have hne : k ≠ key := by
          rintro rfl
          exact hn.1 (List.mem_map.2 ⟨_, h, rfl⟩)
        simp [getOwn, hne, ih hn.2 h]

theorem getOwn_none {own : Props} {key : JSString} (h : hasOwn own key = false) :
    getOwn own key = none := by
  cases hg : getOwn own key with
  | none => rfl
  | some v =>
      have := (hasOwn_iff own key).2 (List.mem_map.2 ⟨_, getOwn_mem hg, rfl⟩)
      simp [this] at h

theorem dictProps_iff (l : Props) :
    dictProps l = true ↔ ∀ e ∈ l, isLeaf e.2 = true ∨ isDict e.2 = true := by
  induction l with
  | nil => simp [dictProps]
  | cons e rest ih =>
      obtain ⟨k, v⟩ := e
      simp [dictProps, ih]

theorem noProtoKeyProps_iff (l : Props) :
    noProtoKeyProps l = true ↔ ∀ e ∈ l, e.1 ≠ protoKey ∧ noProtoKey e.2 = true := by
  induction l with
  | nil => simp [noProtoKeyProps]
  | cons e rest ih =>
      obtain ⟨k, v⟩ := e
      simp [noProtoKeyProps, ih, and_assoc]

theorem isDict_obj_iff (own : Props) (proto : Option JSVal) :
    isDict (.obj own proto) = true ↔
      (own.map Prod.fst).Nodup ∧ dictProps own = true ∧ ∀ p, proto = some p → isDict p = true := by
  cases proto <;> simp [isDict, and_assoc]

theorem isDict_is_obj {v : JSVal} (h : isDict v = true) : ∃ own proto, v = .obj own proto := by
  cases v <;> first | exact ⟨_, _, rfl⟩ | simp [isDict] at h

theorem isDict_of_typeofObject {v : JSVal} (h : isLeaf v = true ∨ isDict v = true)
    (ht : typeofObject v = true) : isDict v = true := by
  rcases h with h | h
  · cases v <;> simp [isLeaf, typeofObject] at h ht
  · exact h

theorem hasProperty_dict {t : JSVal} (ht : isDict t = true) (key : JSString) :
    hasProperty t key = .ok (hasProp t key) := by
  obtain ⟨own, proto, rfl⟩ := isDict_is_obj ht
  rfl

theorem findData_dict : ∀ (t : JSVal) (key : JSString) (w : JSVal),
    isDict t = true → findData t key = some w → isLeaf w = true ∨ isDict w = true
  | .obj own none, key, w, ht, hf => by
      rw [isDict_obj_iff] at ht
      exact (dictProps_iff own).1 ht.2.1 _ (getOwn_mem hf)
  | .obj own (some p), key, w, ht, hf => by
      rw [isDict_obj_iff] at ht
      cases hg : getOwn own key with
      | some v =>
          simp only [findData, hg] at hf
          cases hf
          exact (dictProps_iff own).1 ht.2.1 _ (getOwn_mem hg)
      | none =>
          simp only [findData, hg] at hf
          exact findData_dict p key w (ht.2.2 p rfl) hf
  | .null, _, _, ht, _ => by simp [isDict] at ht
  | .bool _, _, _, ht, _ => by simp [isDict] at ht
  | .num _, _, _, ht, _ => by simp [isDict] at ht
  | .str _, _, _, ht, _ => by simp [isDict] at ht
  | .arr _, _, _, ht, _ => by simp [isDict] at ht
  | .objectPrototype, _, _, ht, _ => by simp [isDict] at ht
  | .arrayPrototype, _, _, ht, _ => by simp [isDict] at ht

theorem getObject_dict {t : JSVal} {key : JSString} {tv : JSVal} (ht : isDict t = true)
    (hk : key ≠ protoKey) (hg : getObject t key = some tv) : isDict tv = true := by
  unfold getObject at hg
  cases hf : findData t key with
  | none => simp [hf, hk] at hg
  | some w =>
      simp only [hf] at hg
      by_cases hw : typeofObject w = true
      · simp only [hw, if_true, Option.some.injEq] at hg
        subst hg
        exact isDict_of_typeofObject (findData_dict t key w ht hf) hw
      · simp [hw] at hg

/-! ## `compareKeys` against the same object -/

theorem compareProps_cons (key : JSString) (baseVal : JSVal) (rest : Props) (t : JSVal)
    (parentKey : JSString) (missingKeys : List JSString) :
    compareProps ((key, baseVal) :: rest) t parentKey missingKeys =
      (hasProperty t key >>= fun present =>
        (if !present then pure (missingKeys ++ [fullKey parentKey key])
         else if typeofObject baseVal then
           match getObject t key with
           | some targetVal => compareKeys baseVal targetVal (fullKey parentKey key) missingKeys
           | none => pure missingKeys
         else pure missingKeys) >>= fun missing =>
        compareProps rest t parentKey missing) := by
  rw [compareProps]
  cases hasProperty t key with
  | error e => rfl
  | ok present =>
      cases present
      · rfl
      · cases typeofObject baseVal
        · rfl
        · cases getObject t key <;> rfl

theorem compareKeys_obj (own : Props) (proto : Option JSVal) (t : JSVal)
    (parentKey : JSString) (missingKeys : List JSString) :
    compareKeys (.obj own proto) t parentKey missingKeys =
      compareProps own t parentKey missingKeys := by
  rw [compareKeys]

theorem findData_own {own : Props} {proto : Option JSVal} {key : JSString} {v : JSVal}
    (h : getOwn own key = some v) : findData (.obj own proto) key = some v := by
  cases proto <;> simp [findData, h]

theorem hasProp_own {own : Props} {proto : Option JSVal} {key : JSString}
    (h : hasOwn own key = true) : hasProp (.obj own proto) key = true := by
  cases proto <;> simp [hasProp, h]

theorem hasOwn_of_getOwn {own : Props} {key : JSString} {v : JSVal}
    (h : getOwn own key = some v) : hasOwn own key = true :=
  (hasOwn_iff own key).2 (List.mem_map.2 ⟨_, getOwn_mem h, rfl⟩)

mutual
theorem compareKeys_self : ∀ (d : JSVal), isDict d = true →
    ∀ (parentKey : JSString) (missingKeys : List JSString),
      compareKeys d d parentKey missingKeys = .ok missingKeys
  | .obj own proto, hd, parentKey, missingKeys => by
      rw [compareKeys_obj]
      rw [isDict_obj_iff] at hd
      exact compareProps_self own own proto hd.2.1 (fun k v h => getOwn_of_mem hd.1 h)
        parentKey missingKeys
  | .null, hd, _, _ => by simp [isDict] at hd
  | .bool _, hd, _, _ => by simp [isDict] at hd
  | .num _, hd, _, _ => by simp [isDict] at hd
  | .str _, hd, _, _ => by simp [isDict] at hd
  | .arr _, hd, _, _ => by simp [isDict] at hd
  | .objectPrototype, hd, _, _ => by simp [isDict] at hd
  | .arrayPrototype, hd, _, _ => by simp [isDict] at hd
theorem compareProps_self : ∀ (l own : Props) (proto : Option JSVal), dictProps l = true →
    (∀ k v, (k, v) ∈ l → getOwn own k = some v) →
    ∀ (parentKey : JSString) (missingKeys : List JSString),
      compareProps l (.obj own proto) parentKey missingKeys = .ok missingKeys
  | [], _, _, _, _, _, _ => by rw [compareProps]; rfl
  | (key, baseVal) :: rest, own, proto, hl, hown, parentKey, missingKeys => by
      have hg : getOwn own key = some baseVal := hown key baseVal (List.mem_cons_self _ _)
      have hrest := compareProps_self rest own proto
        (by simp [dictProps] at hl; exact hl.2)
        (fun k v h => hown k v (List.mem_cons_of_mem _ h)) parentKey missingKeys
      have hp : hasProperty (.obj own proto) key = .ok true := by
        show Except.ok (hasProp (.obj own proto) key) = _
        rw [hasProp_own (hasOwn_of_getOwn hg)]
      rw [compareProps_cons, hp]
      by_cases hto : typeofObject baseVal = true
      · have hdv : isDict baseVal = true :=
          isDict_of_typeofObject ((dictProps_iff _).1 hl _ (List.mem_cons_self _ _)) hto
        have hgo : getObject (.obj own proto) key = some baseVal := by
          simp [getObject, findData_own hg, hto]
        have hself := compareKeys_self baseVal hdv (fullKey parentKey key) missingKeys
        simp only [hgo, hto, hself]
        exact hrest
      · simp only [hto]
        exact hrest
end

/-! ## What `compareKeys` reports -/

theorem descend_nil (b t : JSVal) : descend b t [] = some (b, t) := by
  cases b <;> rfl

theorem descend_cons {own : Props} {proto : Option JSVal} {t : JSVal} {key : JSString}
    {ks : List JSString} {r : JSVal × JSVal} :
    descend (.obj own proto) t (key :: ks) = some r ↔
      ∃ baseVal targetVal, getOwn own key = some baseVal ∧ hasProp t key = true ∧
        typeofObject baseVal = true ∧ getObject t key = some targetVal ∧
        descend baseVal targetVal ks = some r := by
  rw [descend]
  cases hg : getOwn own key with
  | none => simp
  | some baseVal =>
      cases hh : hasProp t key
      · simp
      · cases hto : typeofObject baseVal
        · simp [hto]
        · cases hgo : getObject t key <;> simp [hto]

theorem pathOf_cons (parentKey key : JSString) (ks : List JSString) :
    pathOf parentKey (key :: ks) = pathOf (fullKey parentKey key) ks := rfl

theorem reported_obj_iff {own : Props} {proto : Option JSVal} (hn : (own.map Prod.fst).Nodup)
    (t : JSVal) (parentKey p : JSString) :
    Reported (.obj own proto) t parentKey p ↔
      ∃ k v, (k, v) ∈ own ∧ EntryReports k v t parentKey p := by
  constructor
  · rintro ⟨ks, k, b', t', hd, hk, hh, hp⟩
    cases ks with
    | nil =>
        rw [descend_nil] at hd
        cases hd
        obtain ⟨⟨k', v⟩, hmem, rfl⟩ := List.mem_map.1 hk
        exact ⟨k', v, hmem, Or.inl ⟨hh, hp⟩⟩
    | cons k0 ks' =>
        obtain ⟨bv, tv, hg, hh0, hto, hgo, hd'⟩ := descend_cons.1 hd
        exact ⟨k0, bv, getOwn_mem hg,
          Or.inr ⟨hh0, hto, tv, hgo, ks', k, b', t', hd', hk, hh, hp⟩⟩
  · rintro ⟨k, v, hmem, h | ⟨hh0, hto, tv, hgo, ks', k', b', t', hd', hk, hh, hp⟩⟩
    · exact ⟨[], k, _, _, descend_nil _ _, List.mem_map.2 ⟨_, hmem, rfl⟩, h.1, h.2⟩
    · exact ⟨k :: ks', k', b', t',
        descend_cons.2 ⟨v, tv, getOwn_of_mem hn hmem, hh0, hto, hgo, hd'⟩, hk, hh, hp⟩

theorem exists_entry_cons (key : JSString) (baseVal : JSVal) (rest : Props)
    (E : JSString → JSVal → Prop) :
    (∃ k v, (k, v) ∈ (key, baseVal) :: rest ∧ E k v) ↔
      E key baseVal ∨ ∃ k v, (k, v) ∈ rest ∧ E k v := by
  constructor
  · rintro ⟨k, v, hmem, hE⟩
    rcases List.mem_cons.1 hmem with h | h
    · cases h
      exact Or.inl hE
    · exact Or.inr ⟨k, v, h, hE⟩
  · rintro (hE | ⟨k, v, h, hE⟩)
    · exact ⟨key, baseVal, List.mem_cons_self _ _, hE⟩
    · exact ⟨k, v, List.mem_cons_of_mem _ h, hE⟩

mutual
theorem compareKeys_spec : ∀ (b : JSVal), isDict b = true → noProtoKey b = true →
    ∀ (t : JSVal), isDict t = true → ∀ (parentKey : JSString) (missingKeys : List JSString),
      ∃ L, compareKeys b t parentKey missingKeys = .ok (missingKeys ++ L) ∧
        ∀ p, p ∈ L ↔ Reported b t parentKey p
  | .obj own proto, hb, hnp, t, ht, parentKey, missingKeys => by
      rw [isDict_obj_iff] at hb
      obtain ⟨L, hL, hmem⟩ := compareProps_spec own hb.2.1 (by simpa [noProtoKey] using hnp)
        t ht parentKey missingKeys
      refine ⟨L, by rw [compareKeys_obj]; exact hL, fun p => ?_⟩
      rw [hmem, reported_obj_iff hb.1]
  | .null, hb, _, _, _, _, _ => by simp [isDict] at hb
  | .bool _, hb, _, _, _, _, _ => by simp [isDict] at hb
  | .num _, hb, _, _, _, _, _ => by simp [isDict] at hb
  | .str _, hb, _, _, _, _, _ => by simp [isDict] at hb
  | .arr _, hb, _, _, _, _, _ => by simp [isDict] at hb
  | .objectPrototype, hb, _, _, _, _, _ => by simp [isDict] at hb
  | .arrayPrototype, hb, _, _, _, _, _ => by simp [isDict] at hb
theorem compareProps_spec : ∀ (l : Props), dictProps l = true → noProtoKeyProps l = true →
    ∀ (t : JSVal), isDict t = true → ∀ (parentKey : JSString) (missingKeys : List JSString),
      ∃ L, compareProps l t parentKey missingKeys = .ok (missingKeys ++ L) ∧
        ∀ p, p ∈ L ↔ ∃ k v, (k, v) ∈ l ∧ EntryReports k v t parentKey p
  | [], _, _, _, _, _, missingKeys => ⟨[], by rw [compareProps]; simp; rfl, by simp⟩
  | (key, baseVal) :: rest, hl, hnp, t, ht, parentKey, missingKeys => by
      have hl' : dictProps rest = true := by simp [dictProps] at hl; exact hl.2
      have hnp' := (noProtoKeyProps_iff _).1 hnp
      have hnpr : noProtoKeyProps rest = true :=
        (noProtoKeyProps_iff _).2 (fun e he => hnp' e (List.mem_cons_of_mem _ he))
      have hkey := hnp' _ (List.mem_cons_self _ _)
      have hrest := compareProps_spec rest hl' hnpr t ht parentKey
      rw [compareProps_cons, hasProperty_dict ht]
      simp only [exists_entry_cons]
      cases hh : hasProp t key
      · obtain ⟨Lr, hLr, hmem⟩ := hrest (missingKeys ++ [fullKey parentKey key])
        refine ⟨fullKey parentKey key :: Lr, ?_, fun p => ?_⟩
        · simpa using hLr
        · rw [List.mem_cons, hmem]
          simp [EntryReports, hh]
      · by_cases hto : typeofObject baseVal = true
        · cases hgo : getObject t key with
          | none =>
              obtain ⟨Lr, hLr, hmem⟩ := hrest missingKeys
              refine ⟨Lr, ?_, fun p => ?_⟩
              · simpa [hto] using hLr
              · rw [hmem]
                simp [EntryReports, hh, hgo]
          | some tv =>
              have hdv : isDict baseVal = true :=
                isDict_of_typeofObject ((dictProps_iff _).1 hl _ (List.mem_cons_self _ _)) hto
              obtain ⟨L1, hL1, hmem1⟩ := compareKeys_spec baseVal hdv hkey.2 tv
                (getObject_dict ht hkey.1 hgo) (fullKey parentKey key) missingKeys
              obtain ⟨Lr, hLr, hmem⟩ := hrest (missingKeys ++ L1)
              refine ⟨L1 ++ Lr, ?_, fun p => ?_⟩
              · simp only [hto, hL1]
                simpa using hLr
              · rw [List.mem_append, hmem, hmem1]
                simp [EntryReports, hh, hgo, hto]
        · obtain ⟨Lr, hLr, hmem⟩ := hrest missingKeys
          refine ⟨Lr, ?_, fun p => ?_⟩
          · simpa [hto] using hLr
          · rw [hmem]
            simp [EntryReports, hh, hto]
end

/-! ## Dictionaries with ordinary keys -/

theorem plainProps_iff (l : Props) :
    plainProps l = true ↔ ∀ e ∈ l, isLeaf e.2 = true ∨ isPlainDict e.2 = true := by
  induction l with
  | nil => simp [plainProps]
  | cons e rest ih =>
      obtain ⟨k, v⟩ := e
      simp [plainProps, ih]

theorem noInheritedKeyProps_iff (l : Props) :
    noInheritedKeyProps l = true ↔
      ∀ e ∈ l, e.1 ∉ objectPrototypeNames ∧ noInheritedKey e.2 = true := by
  induction l with
  | nil => simp [noInheritedKeyProps]
  | cons e rest ih =>
      obtain ⟨k, v⟩ := e
      simp [noInheritedKeyProps, ih, and_assoc]

theorem isPlainDict_obj {v : JSVal} (h : isPlainDict v = true) :
    ∃ own, v = .obj own none ∧ (own.map Prod.fst).Nodup ∧ plainProps own = true := by
  cases v with
  | obj own proto =>
      cases proto with
      | none =>
          simp only [isPlainDict, Bool.and_eq_true, decide_eq_true_eq] at h
          exact ⟨own, rfl, h.1, h.2⟩
      | some p => simp [isPlainDict] at h
  | _ => simp [isPlainDict] at h

mutual
theorem isDict_of_plain : ∀ v : JSVal, isPlainDict v = true → isDict v = true
  | .obj own none, h => by
      simp only [isPlainDict, Bool.and_eq_true, decide_eq_true_eq] at h
      simp only [isDict, Bool.and_eq_true, decide_eq_true_eq]
      exact ⟨h.1, dictProps_of_plain own h.2⟩
  | .obj own (some p), h => by simp [isPlainDict] at h
  | .null, h => by simp [isPlainDict] at h
  | .bool _, h => by simp [isPlainDict] at h
  | .num _, h => by simp [isPlainDict] at h
  | .str _, h => by simp [isPlainDict] at h
  | .arr _, h => by simp [isPlainDict] at h
  | .objectPrototype, h => by simp [isPlainDict] at h
  | .arrayPrototype, h => by simp [isPlainDict] at h
theorem dictProps_of_plain : ∀ l : Props, plainProps l = true → dictProps l = true
  | [], _ => rfl
  | (k, v) :: rest, h => by
      simp only [plainProps, Bool.and_eq_true, Bool.or_eq_true] at h
      simp only [dictProps, Bool.and_eq_true, Bool.or_eq_true]
      exact ⟨h.1.imp id (isDict_of_plain v), dictProps_of_plain rest h.2⟩
end

mutual
theorem noProtoKey_of_noInherited : ∀ v : JSVal, noInheritedKey v = true → noProtoKey v = true
  | .obj own proto, h => by
      simp only [noInheritedKey] at h
      simp only [noProtoKey]
      exact noProtoKeyProps_of_noInherited own h
  | .null, _ => rfl
  | .bool _, _ => rfl
  | .num _, _ => rfl
  | .str _, _ => rfl
  | .arr _, _ => rfl
  | .objectPrototype, _ => rfl
  | .arrayPrototype, _ => rfl
theorem noProtoKeyProps_of_noInherited : ∀ l : Props, noInheritedKeyProps l = true →
    noProtoKeyProps l = true
  | [], _ => rfl
  | (k, v) :: rest, h => by
      simp only [noInheritedKeyProps, Bool.and_eq_true, decide_eq_true_eq] at h
      simp only [noProtoKeyProps, Bool.and_eq_true, decide_eq_true_eq]
      refine ⟨⟨fun hk => h.1.1 (hk ▸ ?_), noProtoKey_of_noInherited v h.1.2⟩,
        noProtoKeyProps_of_noInherited rest h.2⟩
      decide
end

theorem typeofObject_of_plain {v : JSVal} (h : isPlainDict v = true) : typeofObject v = true := by
  obtain ⟨own, rfl, _⟩ := isPlainDict_obj h
  rfl

theorem plain_of_typeofObject {v : JSVal} (h : isLeaf v = true ∨ isPlainDict v = true)
    (ht : typeofObject v = true) : isPlainDict v = true := by
  rcases h with h | h
  · cases v <;> simp [isLeaf, typeofObject] at h ht
  · exact h

theorem hasProp_plain {own : Props} {key : JSString} (hk : key ∉ objectPrototypeNames) :
    hasProp (.obj own none) key = hasOwn own key := by
  simp [hasProp, hk]

theorem getObject_plain {own : Props} {key : JSString} (hk : key ∉ objectPrototypeNames) :
    getObject (.obj own none) key =
      match getOwn own key with
      | some w => if typeofObject w then some w else none
      | none => none := by
  have hp : key ≠ protoKey := fun h => hk (h ▸ by decide)
  unfold getObject
  simp only [findData]
  cases getOwn own key <;> simp [hp]

theorem descendOwn_nil (b t : JSVal) : descendOwn b t [] = some (b, t) := by
  cases b <;> cases t <;> rfl

theorem descend_plain : ∀ (ks : List JSString) (b t : JSVal), isPlainDict b = true →
    noInheritedKey b = true → isPlainDict t = true →
    descend b t ks = descendOwn b t ks ∧
      ∀ r, descendOwn b t ks = some r →
        isPlainDict r.1 = true ∧ noInheritedKey r.1 = true ∧ isPlainDict r.2 = true
  | [], b, t, hb, hk, ht => by
      refine ⟨by rw [descend_nil, descendOwn_nil], fun r hr => ?_⟩
      rw [descendOwn_nil] at hr
      cases hr
      exact ⟨hb, hk, ht⟩
  | key :: ks, b, t, hb, hk, ht => by
      obtain ⟨bown, rfl, hbn, hbp⟩ := isPlainDict_obj hb
      obtain ⟨town, rfl, htn, htp⟩ := isPlainDict_obj ht
      simp only [noInheritedKey] at hk
      rw [descend, descendOwn]
      cases hgb : getOwn bown key with
      | none => simp
      | some bv =>
          have hmem := getOwn_mem hgb
          have hkey := (noInheritedKeyProps_iff bown).1 hk _ hmem
          have hbv := (plainProps_iff bown).1 hbp _ hmem
          rw [hasProp_plain hkey.1, getObject_plain hkey.1]
          cases hgt : getOwn town key with
          | none =>
              have : hasOwn town key = false := by
                cases h : hasOwn town key with
                | false => rfl
                | true =>
                    obtain ⟨e, he, hek⟩ := List.mem_map.1 ((hasOwn_iff town key).1 h)
                    have := getOwn_of_mem htn (hek ▸ he : (key, e.2) ∈ town)
                    rw [hgt] at this
                    cases this
              simp [this]
          | some tv =>
              have htv := (plainProps_iff town).1 htp _ (getOwn_mem hgt)
              simp only [hasOwn_of_getOwn hgt, Bool.true_and]
              by_cases h1 : typeofObject bv = true
              · by_cases h2 : typeofObject tv = true
                · have p1 := plain_of_typeofObject hbv h1
                  have p2 := plain_of_typeofObject htv h2
                  simp only [h1, h2, p1, p2, if_true, Bool.and_self]
                  exact descend_plain ks bv tv p1 hkey.2 p2
                · have p2 : ¬ isPlainDict tv = true := fun h => h2 (typeofObject_of_plain h)
                  simp [h1, h2, p2]
              · have p1 : ¬ isPlainDict bv = true := fun h => h1 (typeofObject_of_plain h)
                simp [h1, p1]

/-! ## The object `sortObject` builds -/

theorem bind_eq_ok {α β : Type} {x : Except JSError α} {f : α → Except JSError β} {r : β} :
    (x >>= f) = .ok r ↔ ∃ a, x = .ok a ∧ f a = .ok r := by
  cases x with
  | error e => simp [bind, Except.bind]
  | ok a => simp [bind, Except.bind]

theorem sortObject_obj (own : Props) (proto : Option JSVal) :
    sortObject (.obj own proto) = (sortProps own >>= fun r => pure (reduceSorted r)) := by
  rw [sortObject]

theorem sortObject_arr (items : List JSVal) :
    sortObject (.arr items) = (sortItems items 0 >>= fun r => pure (reduceSorted r)) := by
  rw [sortObject]

theorem sortProps_cons (key : JSString) (v : JSVal) (rest : Props) :
    sortProps ((key, v) :: rest) =
      ((if typeofObject v then sortObject v else pure v) >>= fun v' =>
        sortProps rest >>= fun rest' => pure ((key, v') :: rest')) := by
  rw [sortProps]
  cases typeofObject v <;> rfl

theorem sortItems_cons (v : JSVal) (rest : List JSVal) (i : Nat) :
    sortItems (v :: rest) i =
      ((if typeofObject v then sortObject v else pure v) >>= fun v' =>
        sortItems rest (i + 1) >>= fun rest' => pure ((indexKey i, v') :: rest')) := by
  rw [sortItems]
  cases typeofObject v <;> rfl

theorem goodVal_isDict_or {v : JSVal} (h : GoodVal v) : isLeaf v = true ∨ isDict v = true :=
  h.imp id And.left

theorem goodVal_noProtoKey {v : JSVal} (h : GoodVal v) : noProtoKey v = true := by
  rcases h with h | h
  · cases v <;> first | rfl | simp [isLeaf] at h
  · exact h.2

theorem goodObj_isDict {a : JSVal} (h : GoodObj a) : isDict a = true := by
  obtain ⟨own, proto, rfl, hn, hv, hp⟩ := h
  exact (isDict_obj_iff own proto).2
    ⟨hn, (dictProps_iff own).2 (fun e he => goodVal_isDict_or (hv e he).2), hp⟩

theorem goodObj_noProtoKey {a : JSVal} (h : GoodObj a) : noProtoKey a = true := by
  obtain ⟨own, proto, rfl, hn, hv, hp⟩ := h
  simp only [noProtoKey]
  exact (noProtoKeyProps_iff own).2 (fun e he => ⟨(hv e he).1, goodVal_noProtoKey (hv e he).2⟩)

theorem goodObj_goodVal {a : JSVal} (h : GoodObj a) : GoodVal a :=
  Or.inr ⟨goodObj_isDict h, goodObj_noProtoKey h⟩

theorem replaceProp_keys (own : Props) (key : JSString) (v : JSVal) :
    (replaceProp own key v).map Prod.fst = own.map Prod.fst := by
  induction own with
  | nil => rfl
  | cons e rest ih =>
      simp only [replaceProp, List.map_cons] at ih ⊢
      rw [ih]
      by_cases h : e.1 = key <;> simp [h]

theorem mem_replaceProp {own : Props} {key : JSString} {v : JSVal} {e : JSString × JSVal}
    (h : e ∈ replaceProp own key v) : e ∈ own ∨ e = (key, v) := by
  simp only [replaceProp, List.mem_map] at h
  obtain ⟨e0, he0, rfl⟩ := h
  by_cases hk : e0.1 = key
  · simp [hk]
  · simp [hk, he0]

theorem addIndexProp_perm (own : Props) (key : JSString) (v : JSVal) :
    (addIndexProp own key v).Perm ((key, v) :: own) := by
  induction own with
  | nil => exact List.Perm.refl _
  | cons e rest ih =>
      simp only [addIndexProp]
      split
      · exact (List.Perm.cons e ih).trans (List.Perm.swap _ _ _)
      · exact List.Perm.refl _

theorem addProp_perm (own : Props) (key : JSString) (v : JSVal) :
    (addProp own key v).Perm ((key, v) :: own) := by
  unfold addProp
  split
  · exact addIndexProp_perm own key v
  · exact List.perm_append_singleton _ _

theorem setProp_good {a : JSVal} (ha : GoodObj a) (key : JSString) {v : JSVal}
    (hv : GoodVal v) : GoodObj (setProp a key v) := by
  obtain ⟨own, proto, rfl, hn, hvs, hp⟩ := ha
  simp only [setProp]
  by_cases hown : hasOwn own key = true
  · simp only [hown, if_true]
    refine ⟨_, _, rfl, by rw [replaceProp_keys]; exact hn, fun e he => ?_, hp⟩
    rcases mem_replaceProp he with h | h
    · exact hvs e h
    · subst h
      obtain ⟨e0, he0, hk⟩ := List.mem_map.1 ((hasOwn_iff own key).1 hown)
      exact ⟨hk ▸ (hvs e0 he0).1, hv⟩
  · simp only [hown]
    by_cases hk : key = protoKey
    · by_cases hto : typeofObject v = true
      · simp only [hk, hto, if_true]
        refine ⟨_, _, rfl, hn, hvs, fun p hpe => ?_⟩
        cases hpe
        exact isDict_of_typeofObject (goodVal_isDict_or hv) hto
      · simp only [hk, hto, if_true]
        exact ⟨_, _, rfl, hn, hvs, hp⟩
    · simp only [hk]
      have hperm := addProp_perm own key v
      refine ⟨_, _, rfl, ?_, fun e he => ?_, hp⟩
      · rw [(hperm.map Prod.fst).nodup_iff]
        simp only [List.map_cons, List.nodup_cons]
        exact ⟨fun h => hown ((hasOwn_iff own key).2 h), hn⟩
      · rcases List.mem_cons.1 (hperm.mem_iff.1 he) with h | h
        · subst h
          exact ⟨hk, hv⟩
        · exact hvs e h

theorem foldl_setProp_good (es : Props) (hes : ∀ e ∈ es, GoodVal e.2) :
    ∀ a, GoodObj a → GoodObj (es.foldl (fun acc e => setProp acc e.1 e.2) a) := by
  induction es with
  | nil => exact fun a ha => ha
  | cons e rest ih =>
      intro a ha
      exact ih (fun e' he' => hes e' (List.mem_cons_of_mem _ he')) _
        (setProp_good ha e.1 (hes e (List.mem_cons_self _ _)))

theorem sortByKey_perm (es : Props) : (sortByKey es).Perm es :=
  List.perm_insertionSort _ es

theorem goodObj_empty : GoodObj (.obj [] none) :=
  ⟨[], none, rfl, List.nodup_nil, by simp, by simp⟩

theorem reduceSorted_good (es : Props) (hes : ∀ e ∈ es, GoodVal e.2) :
    GoodObj (reduceSorted es) :=
  foldl_setProp_good _ (fun e he => hes e ((sortByKey_perm es).mem_iff.1 he)) _ goodObj_empty

theorem stringEntries_leaf : ∀ (s : JSString) (i : Nat), ∀ e ∈ stringEntries s i,
    ¬ typeofObject e.2 = true
  | [], _, e, he => by simp [stringEntries] at he
  | u :: rest, i, e, he => by
      simp only [stringEntries, List.mem_cons] at he
      rcases he with h | h
      · subst h
        simp [typeofObject]
      · exact stringEntries_leaf rest (i + 1) e h

theorem goodVal_of_not_typeofObject {v : JSVal} (h : ¬ typeofObject v = true) : GoodVal v := by
  cases v <;> first | exact Or.inl rfl | simp [typeofObject] at h

theorem reduceSorted_nil : reduceSorted [] = .obj [] none := rfl

mutual
theorem sortObject_output (P : JSVal → Prop) (hleaf : ∀ v, ¬ typeofObject v = true → P v)
    (hred : ∀ es : Props, (∀ e ∈ es, P e.2) → P (reduceSorted es)) :
    ∀ (v S : JSVal), sortObject v = .ok S → ∃ es, S = reduceSorted es ∧ ∀ e ∈ es, P e.2
  | .obj own proto, S, h => by
      rw [sortObject_obj, bind_eq_ok] at h
      obtain ⟨r, hr, hS⟩ := h
      cases hS
      exact ⟨r, rfl, sortProps_output P hleaf hred own r hr⟩
  | .arr items, S, h => by
      rw [sortObject_arr, bind_eq_ok] at h
      obtain ⟨r, hr, hS⟩ := h
      cases hS
      exact ⟨r, rfl, sortItems_output P hleaf hred items 0 r hr⟩
  | .str s, S, h => by
      rw [sortObject] at h
      cases h
      exact ⟨_, rfl, fun e he => hleaf _ (stringEntries_leaf s 0 e he)⟩
  | .null, S, h => by simp [sortObject] at h
  | .bool _, S, h => by
      simp only [sortObject] at h
      cases h
      exact ⟨[], rfl, by simp⟩
  | .num _, S, h => by
      simp only [sortObject] at h
      cases h
      exact ⟨[], rfl, by simp⟩
  | .objectPrototype, S, h => by
      simp only [sortObject] at h
      cases h
      exact ⟨[], rfl, by simp⟩
  | .arrayPrototype, S, h => by
      simp only [sortObject] at h
      cases h
      exact ⟨[], rfl, by simp⟩
theorem sortProps_output (P : JSVal → Prop) (hleaf : ∀ v, ¬ typeofObject v = true → P v)
    (hred : ∀ es : Props, (∀ e ∈ es, P e.2) → P (reduceSorted es)) :
    ∀ (l r : Props), sortProps l = .ok r → ∀ e ∈ r, P e.2
  | [], r, h => by
      rw [sortProps] at h
      cases h
      simp
  | (key, v) :: rest, r, h => by
      rw [sortProps_cons, bind_eq_ok] at h
      obtain ⟨v', hv', h⟩ := h
      rw [bind_eq_ok] at h
      obtain ⟨rest', hrest', h⟩ := h
      cases h
      intro e he
      rcases List.mem_cons.1 he with h | h
      · subst h
        by_cases hto : typeofObject v = true
        · simp only [hto, if_true] at hv'
          obtain ⟨es, rfl, hes⟩ := sortObject_output P hleaf hred v v' hv'
          exact hred es hes
        · simp only [hto] at hv'
          cases hv'
          exact hleaf _ hto
      · exact sortProps_output P hleaf hred rest rest' hrest' e h
theorem sortItems_output (P : JSVal → Prop) (hleaf : ∀ v, ¬ typeofObject v = true → P v)
    (hred : ∀ es : Props, (∀ e ∈ es, P e.2) → P (reduceSorted es)) :
    ∀ (l : List JSVal) (i : Nat) (r : Props), sortItems l i = .ok r → ∀ e ∈ r, P e.2
  | [], _, r, h => by
      rw [sortItems] at h
      cases h
      simp
  | v :: rest, i, r, h => by
      rw [sortItems_cons, bind_eq_ok] at h
      obtain ⟨v', hv', h⟩ := h
      rw [bind_eq_ok] at h
      obtain ⟨rest', hrest', h⟩ := h
      cases h
      intro e he
      rcases List.mem_cons.1 he with h | h
      · subst h
        by_cases hto : typeofObject v = true
        · simp only [hto, if_true] at hv'
          obtain ⟨es, rfl, hes⟩ := sortObject_output P hleaf hred v v' hv'
          exact hred es hes
        · simp only [hto] at hv'
          cases hv'
          exact hleaf _ hto
      · exact sortItems_output P hleaf hred rest (i + 1) rest' hrest' e h
end

theorem sortObject_good {v S : JSVal} (h : sortObject v = .ok S) : GoodObj S := by
  obtain ⟨es, rfl, hes⟩ := sortObject_output GoodVal (fun v hv => goodVal_of_not_typeofObject hv)
    (fun es hes => goodObj_goodVal (reduceSorted_good es hes)) v S h
  exact reduceSorted_good es hes

mutual
theorem sortObject_total : ∀ (v : JSVal), isDict v = true → ∃ S, sortObject v = .ok S
  | .obj own proto, h => by
      rw [isDict_obj_iff] at h
      obtain ⟨r, hr⟩ := sortProps_total own h.2.1
      exact ⟨reduceSorted r, by rw [sortObject_obj, hr]; rfl⟩
  | .null, h => by simp [isDict] at h
  | .bool _, h => by simp [isDict] at h
  | .num _, h => by simp [isDict] at h
  | .str _, h => by simp [isDict] at h
  | .arr _, h => by simp [isDict] at h
  | .objectPrototype, h => by simp [isDict] at h
  | .arrayPrototype, h => by simp [isDict] at h
theorem sortProps_total : ∀ (l : Props), dictProps l = true → ∃ r, sortProps l = .ok r
  | [], _ => ⟨[], by rw [sortProps]; rfl⟩
  | (key, v) :: rest, h => by
      have hv := (dictProps_iff _).1 h _ (List.mem_cons_self _ _)
      obtain ⟨rest', hrest'⟩ := sortProps_total rest (by simp [dictProps] at h; exact h.2)
      by_cases hto : typeofObject v = true
      · obtain ⟨v', hv'⟩ := sortObject_total v (isDict_of_typeofObject hv hto)
        exact ⟨(key, v') :: rest', by rw [sortProps_cons]; simp only [hto, if_true, hv', hrest']; rfl⟩
      · exact ⟨(key, v) :: rest', by rw [sortProps_cons]; simp only [hto, hrest']; rfl⟩
end

/-! ## The order of `sort` and the order of enumeration -/

theorem codeUnitsLe_refl : ∀ a : JSString, codeUnitsLe a a = true
  | [] => rfl
  | x :: xs => by simp [codeUnitsLe, codeUnitsLe_refl xs]

theorem codeUnitsLe_total : ∀ a b : JSString, codeUnitsLe a b = true ∨ codeUnitsLe b a = true
  | [], _ => Or.inl rfl
  | _ :: _, [] => Or.inr rfl
  | x :: xs, y :: ys => by
      simp only [codeUnitsLe, Bool.or_eq_true, decide_eq_true_eq, Bool.and_eq_true, beq_iff_eq]
      rcases Nat.lt_trichotomy x y with h | h | h
      · exact Or.inl (Or.inl h)
      · rcases codeUnitsLe_total xs ys with h' | h'
        · exact Or.inl (Or.inr ⟨h, h'⟩)
        · exact Or.inr (Or.inr ⟨h.symm, h'⟩)
      · exact Or.inr (Or.inl h)

theorem codeUnitsLe_trans : ∀ a b c : JSString, codeUnitsLe a b = true →
    codeUnitsLe b c = true → codeUnitsLe a c = true
  | [], _, _, _, _ => rfl
  | _ :: _, [], _, h, _ => by simp [codeUnitsLe] at h
  | _ :: _, _ :: _, [], _, h => by simp [codeUnitsLe] at h
  | x :: xs, y :: ys, z :: zs, h1, h2 => by
      simp only [codeUnitsLe, Bool.or_eq_true, decide_eq_true_eq, Bool.and_eq_true,
        beq_iff_eq] at h1 h2 ⊢
      rcases h1 with h1 | ⟨h1, h1'⟩
      · rcases h2 with h2 | ⟨h2, _⟩
        · exact Or.inl (by omega)
        · exact Or.inl (by omega)
      · rcases h2 with h2 | ⟨h2, h2'⟩
        · exact Or.inl (by omega)
        · exact Or.inr ⟨by omega, codeUnitsLe_trans xs ys zs h1' h2'⟩

theorem codeUnitsLe_antisymm : ∀ a b : JSString, codeUnitsLe a b = true →
    codeUnitsLe b a = true → a = b
  | [], [], _, _ => rfl
  | [], _ :: _, _, h => by simp [codeUnitsLe] at h
  | _ :: _, [], h, _ => by simp [codeUnitsLe] at h
  | x :: xs, y :: ys, h1, h2 => by
      simp only [codeUnitsLe, Bool.or_eq_true, decide_eq_true_eq, Bool.and_eq_true,
        beq_iff_eq] at h1 h2
      rcases h1 with h1 | ⟨h1, h1'⟩
      · rcases h2 with h2 | ⟨h2, _⟩
        · omega
        · omega
      · rcases h2 with h2 | ⟨_, h2'⟩
        · omega
        · rw [h1, codeUnitsLe_antisymm xs ys h1' h2']

theorem isArrayIndex_inj {a b : JSString} (ha : isArrayIndex a = true)
    (hb : isArrayIndex b = true) (h : decimalValue a = decimalValue b) : a = b := by
  simp only [isArrayIndex, Bool.and_eq_true, decide_eq_true_eq] at ha hb
  rw [← ha.1, ← hb.1, h]

theorem enumeratesBefore_irrefl (a : JSString) : enumeratesBefore a a = false := by
  unfold enumeratesBefore
  by_cases ha : isArrayIndex a = true <;> simp [ha]

theorem enumeratesBefore_trans {a b c : JSString} (h1 : enumeratesBefore a b = true)
    (h2 : enumeratesBefore b c = true) : enumeratesBefore a c = true := by
  unfold enumeratesBefore at h1 h2 ⊢
  by_cases ha : isArrayIndex a = true <;> by_cases hb : isArrayIndex b = true <;>
    by_cases hc : isArrayIndex c = true <;>
    simp only [ha, hb, hc, if_true, if_false, decide_eq_true_eq, Bool.and_eq_true,
      Bool.false_eq_true] at h1 h2 ⊢
  · omega
  · exact ⟨codeUnitsLe_trans a b c h1.1 h2.1, fun hac => by
      subst hac
      exact h1.2 (codeUnitsLe_antisymm a b h1.1 h2.1)⟩

/-! ## Key order of the object `sortObject` builds -/

theorem addIndexProp_ordered {own : Props} {key : JSString} (v : JSVal)
    (hidx : isArrayIndex key = true) (hnot : key ∉ own.map Prod.fst)
    (hown : (own.map Prod.fst).Pairwise (fun a b => enumeratesBefore a b = true)) :
    ((addIndexProp own key v).map Prod.fst).Pairwise (fun a b => enumeratesBefore a b = true) := by
  induction own with
  | nil => simp [addIndexProp]
  | cons e rest ih =>
      simp only [List.map_cons, List.pairwise_cons, List.mem_cons, not_or] at hown hnot
      simp only [addIndexProp]
      split
      · rename_i hc
        simp only [Bool.and_eq_true, decide_eq_true_eq] at hc
        simp only [List.map_cons, List.pairwise_cons]
        refine ⟨fun x hx => ?_, ih hnot.2 hown.2⟩
        have hx' := ((addIndexProp_perm rest key v).map Prod.fst).mem_iff.1 hx
        rcases List.mem_cons.1 hx' with h | h
        · subst h
          simp [enumeratesBefore, hc.1, hidx, hc.2]
        · exact hown.1 x h
      · rename_i hc
        simp only [Bool.and_eq_true, decide_eq_true_eq, not_and, not_lt] at hc
        have hke : enumeratesBefore key e.1 = true := by
          by_cases he : isArrayIndex e.1 = true
          · have hne : decimalValue key ≠ decimalValue e.1 :=
              fun h => hnot.1 (isArrayIndex_inj hidx he h)
            have := hc he
            simp only [enumeratesBefore, hidx, he, if_true, decide_eq_true_eq]
            omega
          · simp [enumeratesBefore, hidx, he]
        simp only [List.map_cons, List.pairwise_cons, List.mem_cons]
        refine ⟨fun x hx => ?_, hown⟩
        rcases hx with h | h
        · rw [h]
          exact hke
        · exact enumeratesBefore_trans hke (hown.1 x h)

theorem addProp_ordered {own : Props} {key : JSString} (v : JSVal)
    (hnot : key ∉ own.map Prod.fst)
    (hle : ∀ a ∈ own.map Prod.fst, codeUnitsLe a key = true)
    (hown : (own.map Prod.fst).Pairwise (fun a b => enumeratesBefore a b = true)) :
    ((addProp own key v).map Prod.fst).Pairwise (fun a b => enumeratesBefore a b = true) := by
  unfold addProp
  by_cases hidx : isArrayIndex key = true
  · simp only [hidx, if_true]
    exact addIndexProp_ordered v hidx hnot hown
  · simp only [hidx, Bool.false_eq_true, if_false]
    rw [List.map_append, List.pairwise_append]
    refine ⟨hown, by simp, fun a ha b hb => ?_⟩
    simp only [List.map_cons, List.map_nil, List.mem_singleton] at hb
    subst hb
    by_cases hai : isArrayIndex a = true
    · simp [enumeratesBefore, hai, hidx]
    · have hne : a ≠ b := fun h => hnot (h ▸ ha)
      simp [enumeratesBefore, hai, hidx, hle a ha, hne]

theorem isSortedProps_iff (l : Props) :
    isSortedProps l = true ↔ ∀ e ∈ l, e.1 ≠ protoKey ∧ SortedVal e.2 := by
  induction l with
  | nil => simp [isSortedProps]
  | cons e rest ih =>
      obtain ⟨k, v⟩ := e
      simp [isSortedProps, ih, and_assoc, SortedVal]

theorem isSorted_iff (a : JSVal) : isSorted a = true ↔ OrderedObj SortedVal a := by
  constructor
  · intro h
    cases a with
    | obj own proto =>
        simp only [isSorted, Bool.and_eq_true, decide_eq_true_eq] at h
        exact ⟨own, proto, rfl, h.1, (isSortedProps_iff own).1 h.2⟩
    | _ => simp [isSorted] at h
  · rintro ⟨own, proto, rfl, h1, h2⟩
    simp only [isSorted, Bool.and_eq_true, decide_eq_true_eq]
    exact ⟨h1, (isSortedProps_iff own).2 h2⟩

theorem setProp_ordered {P : JSVal → Prop} {a : JSVal} (ha : OrderedObj P a) {key : JSString}
    {v : JSVal} (hle : ∀ x ∈ ownKeys a, codeUnitsLe x key = true) (hv : P v) :
    OrderedObj P (setProp a key v) ∧
      ∀ x ∈ ownKeys (setProp a key v), x = key ∨ x ∈ ownKeys a := by
  obtain ⟨own, proto, rfl, hord, hvs⟩ := ha
  simp only [setProp, ownKeys] at hle ⊢
  by_cases hown : hasOwn own key = true
  · simp only [hown, if_true, ownKeys, replaceProp_keys]
    refine ⟨⟨_, _, rfl, by rw [replaceProp_keys]; exact hord, fun e he => ?_⟩,
      fun x hx => Or.inr hx⟩
    rcases mem_replaceProp he with h | h
    · exact hvs e h
    · subst h
      obtain ⟨e0, he0, hk⟩ := List.mem_map.1 ((hasOwn_iff own key).1 hown)
      exact ⟨hk ▸ (hvs e0 he0).1, hv⟩
  · simp only [hown]
    by_cases hk : key = protoKey
    · by_cases hto : typeofObject v = true
      · simp only [hk, hto, if_true, ownKeys]
        exact ⟨⟨_, _, rfl, hord, hvs⟩, fun x hx => Or.inr hx⟩
      · simp only [hk, hto, if_true, ownKeys]
        exact ⟨⟨_, _, rfl, hord, hvs⟩, fun x hx => Or.inr hx⟩
    · simp only [hk, ownKeys]
      have hnot : key ∉ own.map Prod.fst := fun h => hown ((hasOwn_iff own key).2 h)
      have hperm := addProp_perm own key v
      refine ⟨⟨_, _, rfl, addProp_ordered v hnot hle hord, fun e he => ?_⟩, fun x hx => ?_⟩
      · rcases List.mem_cons.1 (hperm.mem_iff.1 he) with h | h
        · subst h
          exact ⟨hk, hv⟩
        · exact hvs e h
      · have := (hperm.map Prod.fst).mem_iff.1 hx
        simpa using this

theorem foldl_setProp_ordered {P : JSVal → Prop} (es : Props)
    (hsorted : (es.map Prod.fst).Pairwise (fun x y => codeUnitsLe x y = true))
    (hes : ∀ e ∈ es, P e.2) :
    ∀ a, OrderedObj P a →
      (∀ x ∈ ownKeys a, ∀ k ∈ es.map Prod.fst, codeUnitsLe x k = true) →
      OrderedObj P (es.foldl (fun acc e => setProp acc e.1 e.2) a) := by
  induction es with
  | nil => exact fun a ha _ => ha
  | cons e rest ih =>
      intro a ha hle
      simp only [List.map_cons, List.pairwise_cons] at hsorted
      obtain ⟨h1, h2⟩ := @setProp_ordered P a ha e.1 e.2
        (fun x hx => hle x hx e.1 (by simp)) (hes e (List.mem_cons_self _ _))
      refine ih hsorted.2 (fun e' he' => hes e' (List.mem_cons_of_mem _ he')) _ h1
        (fun x hx k hk => ?_)
      rcases h2 x hx with h | h
      · rw [h]
        exact hsorted.1 k hk
      · exact hle x h k (by simp [hk])

theorem sortByKey_sorted (es : Props) :
    ((sortByKey es).map Prod.fst).Pairwise (fun x y => codeUnitsLe x y = true) := by
  have hT : IsTotal (JSString × JSVal) (fun a b => codeUnitsLe a.1 b.1 = true) :=
    ⟨fun a b => codeUnitsLe_total a.1 b.1⟩
  have hR : IsTrans (JSString × JSVal) (fun a b => codeUnitsLe a.1 b.1 = true) :=
    ⟨fun a b c => codeUnitsLe_trans a.1 b.1 c.1⟩
  have := List.sorted_insertionSort (fun a b : JSString × JSVal => codeUnitsLe a.1 b.1 = true) es
  exact List.pairwise_map.2 this

theorem orderedObj_empty (P : JSVal → Prop) : OrderedObj P (.obj [] none) :=
  ⟨[], none, rfl, by simp, by simp⟩

theorem reduceSorted_ordered {P : JSVal → Prop} (es : Props) (hes : ∀ e ∈ es, P e.2) :
    OrderedObj P (reduceSorted es) :=
  foldl_setProp_ordered _ (sortByKey_sorted es)
    (fun e he => hes e ((sortByKey_perm es).mem_iff.1 he)) _ (orderedObj_empty P)
    (fun x hx => by simp [ownKeys] at hx)

/-! ## Sorting a sorted object -/

theorem sortObject_sorted {v S : JSVal} (h : sortObject v = .ok S) : isSorted S = true := by
  obtain ⟨es, rfl, hes⟩ := sortObject_output SortedVal
    (fun v hv => Or.inl (by cases v <;> first | rfl | simp [typeofObject] at hv))
    (fun es hes => Or.inr ((isSorted_iff _).2 (reduceSorted_ordered es hes))) v S h
  exact (isSorted_iff _).2 (reduceSorted_ordered es hes)

theorem foldl_setProp_fresh (es : Props) (hes : ∀ e ∈ es, e.1 ≠ protoKey) :
    ∀ (acc : Props) (proto : Option JSVal), ((acc ++ es).map Prod.fst).Nodup →
      ∃ own, es.foldl (fun a e => setProp a e.1 e.2) (.obj acc proto) = .obj own proto ∧
        own.Perm (acc ++ es) := by
  induction es with
  | nil => exact fun acc proto _ => ⟨acc, rfl, by simp⟩
  | cons e rest ih =>
      intro acc proto hn
      have hnot : hasOwn acc e.1 = false := by
        cases h : hasOwn acc e.1 with
        | false => rfl
        | true =>
            have hmem := (hasOwn_iff acc e.1).1 h
            rw [List.map_append, List.nodup_append] at hn
            exact absurd (hn.2.2 hmem (by simp)) (by simp)
      have hstep : setProp (.obj acc proto) e.1 e.2 = .obj (addProp acc e.1 e.2) proto := by
        simp [setProp, hnot, hes e (List.mem_cons_self _ _)]
      have hperm : (addProp acc e.1 e.2 ++ rest).Perm (acc ++ e :: rest) :=
        ((addProp_perm acc e.1 e.2).append_right rest).trans
          (List.perm_middle.symm)
      obtain ⟨own, hown, hp⟩ := ih (fun e' he' => hes e' (List.mem_cons_of_mem _ he'))
        (addProp acc e.1 e.2) proto ((hperm.map Prod.fst).nodup_iff.2 hn)
      exact ⟨own, by rw [List.foldl_cons, hstep, hown], hp.trans hperm⟩

theorem nodup_of_ordered {keys : List JSString}
    (h : keys.Pairwise (fun a b => enumeratesBefore a b = true)) : keys.Nodup :=
  h.imp (fun {a b} hab heq => by
    subst heq
    rw [enumeratesBefore_irrefl] at hab
    exact absurd hab (by simp))

theorem reduceSorted_of_ordered (es : Props)
    (hord : (es.map Prod.fst).Pairwise (fun a b => enumeratesBefore a b = true))
    (hes : ∀ e ∈ es, e.1 ≠ protoKey) : reduceSorted es = .obj es none := by
  have hperm := sortByKey_perm es
  obtain ⟨own, hown, hp⟩ := foldl_setProp_fresh (sortByKey es)
    (fun e he => hes e (hperm.mem_iff.1 he)) [] none
    (by simpa using (hperm.map Prod.fst).nodup_iff.2 (nodup_of_ordered hord))
  obtain ⟨own', proto', heq, hord', _⟩ := reduceSorted_ordered (P := fun _ => True) es
    (fun _ _ => trivial)
  have hred : reduceSorted es = .obj own none := hown
  rw [hred] at heq ⊢
  cases heq
  have hA : IsAntisymm (JSString × JSVal) (fun a b => enumeratesBefore a.1 b.1 = true) :=
    ⟨fun a b hab hba => by
      have := enumeratesBefore_trans hab hba
      rw [enumeratesBefore_irrefl] at this
      exact absurd this (by simp)⟩
  have : own = es :=
    List.eq_of_perm_of_sorted (r := fun (a b : JSString × JSVal) => enumeratesBefore a.1 b.1 = true)
      (hp.trans (by simpa using hperm)) (List.pairwise_map.1 hord') (List.pairwise_map.1 hord)
  rw [this]

theorem ownContentProps_keys : ∀ l : Props,
    (ownContentProps l).map Prod.fst = l.map Prod.fst
  | [] => rfl
  | (k, v) :: rest => by simp [ownContentProps, ownContentProps_keys rest]

theorem ownContent_leaf {v : JSVal} (h : ¬ typeofObject v = true) : ownContent v = v := by
  cases v <;> first | rfl | simp [typeofObject] at h

mutual
theorem sortObject_of_sorted : ∀ (S : JSVal), isSorted S = true →
    sortObject S = .ok (ownContent S)
  | .obj own proto, h => by
      simp only [isSorted, Bool.and_eq_true, decide_eq_true_eq] at h
      rw [sortObject_obj, sortProps_of_sorted own h.2]
      have hkeys := ownContentProps_keys own
      have : reduceSorted (ownContentProps own) = .obj (ownContentProps own) none := by
        refine reduceSorted_of_ordered _ (by rw [hkeys]; exact h.1) (fun e he => ?_)
        have hmem : e.1 ∈ own.map Prod.fst := hkeys ▸ List.mem_map.2 ⟨e, he, rfl⟩
        obtain ⟨e0, he0, hk⟩ := List.mem_map.1 hmem
        exact hk ▸ ((isSortedProps_iff own).1 h.2 e0 he0).1
      show Except.ok (reduceSorted (ownContentProps own)) = _
      rw [this, ownContent]
  | .null, h => by simp [isSorted] at h
  | .bool _, h => by simp [isSorted] at h
  | .num _, h => by simp [isSorted] at h
  | .str _, h => by simp [isSorted] at h
  | .arr _, h => by simp [isSorted] at h
  | .objectPrototype, h => by simp [isSorted] at h
  | .arrayPrototype, h => by simp [isSorted] at h
theorem sortProps_of_sorted : ∀ (l : Props), isSortedProps l = true →
    sortProps l = .ok (ownContentProps l)
  | [], _ => by rw [sortProps, ownContentProps]; rfl
  | (key, v) :: rest, h => by
      simp only [isSortedProps, Bool.and_eq_true, decide_eq_true_eq, Bool.or_eq_true] at h
      rw [sortProps_cons, sortProps_of_sorted rest h.2, ownContentProps]
      by_cases hto : typeofObject v = true
      · have hs : isSorted v = true := by
          rcases h.1.2 with hl | hs
          · cases v <;> simp [isLeaf, typeofObject] at hl hto
          · exact hs
        simp only [hto, if_true, sortObject_of_sorted v hs]
        rfl
      · simp only [hto, ownContent_leaf hto]
        rfl
end

mutual
theorem ownContent_idem : ∀ v : JSVal, ownContent (ownContent v) = ownContent v
  | .obj own proto => by
      simp only [ownContent, ownContentProps_idem own]
  | .arr items => by
      simp only [ownContent, ownContentItems_idem items]
  | .null => rfl
  | .bool _ => rfl
  | .num _ => rfl
  | .str _ => rfl
  | .objectPrototype => rfl
  | .arrayPrototype => rfl
theorem ownContentProps_idem : ∀ l : Props,
    ownContentProps (ownContentProps l) = ownContentProps l
  | [] => rfl
  | (k, v) :: rest => by
      simp only [ownContentProps, ownContent_idem v, ownContentProps_idem rest]
theorem ownContentItems_idem : ∀ l : List JSVal,
    ownContentItems (ownContentItems l) = ownContentItems l
  | [] => rfl
  | v :: rest => by
      simp only [ownContentItems, ownContent_idem v, ownContentItems_idem rest]
end

/-! ## Claims about `compareKeys` -/

/-- C1, as stated, fails.  The key `toString` of the base `{"toString":"x"}`
is absent from the target `{}`, yet nothing is reported, because
`"toString" in {}` holds through `Object.prototype`.  For the base
`{"":{"a":"1"}}` and the target `{"":{}}` the path reported is `a`, not the
dotted path `.a`.  And on `{"__proto__":{"__proto__":{"a":"1"}}}`, a
dictionary that `sortObject` never returns, the call throws. -/
theorem compareKeys_omits_inherited_name :
    compareKeys toStringBase emptyDict [] [] = .ok [] ∧
      utf16 "toString" ∈ ownKeys toStringBase ∧ utf16 "toString" ∉ ownKeys emptyDict ∧
      compareKeys emptyKeyBase emptyKeyTarget [] [] = .ok [utf16 "a"] ∧
      compareKeys protoChainBase emptyDict [] [] = .error .typeError := by
  refine ⟨rfl, by decide, by decide, rfl, rfl⟩

/-- C1, amended.  For nested dictionaries `base` and `target` as `JSON.parse`
returns them, no key of `base` being the name of a property that objects
inherit from `Object.prototype`, and for every `parentKey`: `compareKeys`
returns, and the paths it reports are exactly the paths of the key sequences
`k1 … kn` such that every proper prefix names a key present in both
dictionaries whose values are nested dictionaries on both sides
(`descendOwn`), and `kn` is a key of the base at that level that is absent
from the target at that level.  The path of a key sequence is built by the
template of line 39, key by key (`pathOf`): the segments are joined by `"."`,
and no separator is written while the path so far is empty. -/
theorem compareKeys_reports_exactly (base target : JSVal) (parentKey : JSString)
    (hb : isPlainDict base = true) (hk : noInheritedKey base = true)
    (ht : isPlainDict target = true) :
    ∃ missingKeys, compareKeys base target parentKey [] = .ok missingKeys ∧
      ∀ p, p ∈ missingKeys ↔
        ∃ ks k b t, descendOwn base target ks = some (b, t) ∧ k ∈ ownKeys b ∧
          k ∉ ownKeys t ∧ p = pathOf parentKey (ks ++ [k]) := by
  obtain ⟨L, hL, hmem⟩ := compareKeys_spec base (isDict_of_plain base hb)
    (noProtoKey_of_noInherited base hk) target (isDict_of_plain target ht) parentKey []
  refine ⟨L, by simpa using hL, fun p => ?_⟩
  have key : ∀ (ks : List JSString) (k : JSString) (b t : JSVal),
      descendOwn base target ks = some (b, t) → k ∈ ownKeys b →
        (hasProp t k = false ↔ k ∉ ownKeys t) := by
    intro ks k b t hd hkb
    obtain ⟨pb, nb, pt⟩ := (descend_plain ks base target hb hk ht).2 (b, t) hd
    obtain ⟨bown, rfl, _, _⟩ := isPlainDict_obj pb
    obtain ⟨town, rfl, _, _⟩ := isPlainDict_obj pt
    obtain ⟨e, he, hek⟩ := List.mem_map.1 hkb
    have hname : k ∉ objectPrototypeNames :=
      hek ▸ ((noInheritedKeyProps_iff bown).1 nb e he).1
    rw [hasProp_plain hname]
    show hasOwn town k = false ↔ k ∉ town.map Prod.fst
    rw [← hasOwn_iff]
    simp
  rw [hmem]
  constructor
  · rintro ⟨ks, k, b, t, hd, hkb, hh, hp⟩
    rw [(descend_plain ks base target hb hk ht).1] at hd
    exact ⟨ks, k, b, t, hd, hkb, (key ks k b t hd hkb).1 hh, hp⟩
  · rintro ⟨ks, k, b, t, hd, hkb, hh, hp⟩
    refine ⟨ks, k, b, t, ?_, hkb, (key ks k b t hd hkb).2 hh, hp⟩
    rw [(descend_plain ks base target hb hk ht).1]
    exact hd

/-- The amended C1 at `{"a":"1","b":{"c":"2"}}` against `{"a":"x"}`. -/
theorem compareKeys_reports_exactly_witness :
    isPlainDict nestedBase = true ∧ noInheritedKey nestedBase = true ∧
      isPlainDict flatTarget = true ∧
      ∃ missingKeys, compareKeys nestedBase flatTarget [] [] = .ok missingKeys ∧
        ∀ p, p ∈ missingKeys ↔
          ∃ ks k b t, descendOwn nestedBase flatTarget ks = some (b, t) ∧ k ∈ ownKeys b ∧
            k ∉ ownKeys t ∧ p = pathOf [] (ks ++ [k]) :=
  ⟨by decide, by decide, by decide,
    compareKeys_reports_exactly nestedBase flatTarget [] (by decide) (by decide) (by decide)⟩

/-- C8.  For every nested dictionary `D` and every `parentKey`,
`compareKeys(D, D)` returns and reports no missing key. -/
theorem compareKeys_same_reports_nothing (D : JSVal) (parentKey : JSString)
    (hD : isDict D = true) : compareKeys D D parentKey [] = .ok [] :=
  compareKeys_self D hD parentKey []

/-- C8 at `{"a":"1","b":{"c":"2"}}`. -/
theorem compareKeys_same_reports_nothing_witness :
    isDict nestedBase = true ∧ compareKeys nestedBase nestedBase [] [] = .ok [] :=
  ⟨by decide, compareKeys_same_reports_nothing nestedBase [] (by decide)⟩

/-- The example of C9.  For the base `{"a":"1","b":{"c":"2"}}` and the target
`{"a":"x"}` the missing keys are exactly `["b"]`; `b.c` is not among them. -/
theorem compareKeys_absent_parent_only :
    compareKeys nestedBase flatTarget [] [] = .ok [utf16 "b"] ∧
      utf16 "b.c" ∉ [utf16 "b"] := by
  refine ⟨rfl, by decide⟩

theorem getObject_leaf {tOwn : Props} {tproto : Option JSVal} {key : JSString} {tv : JSVal}
    (hg : getOwn tOwn key = some tv) (hleaf : typeofObject tv = false) :
    getObject (.obj tOwn tproto) key = none := by
  simp [getObject, findData_own hg, hleaf]

theorem compareProps_skip {t : JSVal} {key : JSString} (baseVal : JSVal)
    (h1 : hasProperty t key = .ok true) (h2 : getObject t key = none) (post : Props)
    (parentKey : JSString) :
    ∀ (pre : Props) (missingKeys : List JSString),
      compareProps (pre ++ (key, baseVal) :: post) t parentKey missingKeys =
        compareProps (pre ++ post) t parentKey missingKeys := by
  intro pre
  induction pre with
  | nil =>
      intro missingKeys
      rw [List.nil_append, List.nil_append, compareProps_cons, h1, h2]
      cases typeofObject baseVal <;> rfl
  | cons e rest ih =>
      intro missingKeys
      obtain ⟨k, v⟩ := e
      rw [List.cons_append, List.cons_append, compareProps_cons, compareProps_cons]
      congr 1
      funext present
      congr 1
      funext missing
      exact ih missing

/-- C10.  When `key` is present on both sides and the target maps it to a
value that is not an object (a string, a number, a boolean), the property
contributes nothing to the missing keys, whatever the base maps it to, a
nested dictionary included: `compareKeys` returns what it returns for the
base without that property. -/
theorem compareKeys_type_mismatch_silent (before after : Props) (key : JSString)
    (baseVal : JSVal) (baseProto : Option JSVal) (targetOwn : Props)
    (targetProto : Option JSVal) (targetVal : JSVal) (parentKey : JSString)
    (missingKeys : List JSString) (hg : getOwn targetOwn key = some targetVal)
    (hleaf : typeofObject targetVal = false) :
    compareKeys (.obj (before ++ (key, baseVal) :: after) baseProto)
        (.obj targetOwn targetProto) parentKey missingKeys =
      compareKeys (.obj (before ++ after) baseProto) (.obj targetOwn targetProto)
        parentKey missingKeys := by
  rw [compareKeys_obj, compareKeys_obj]
  refine compareProps_skip baseVal ?_ (getObject_leaf hg hleaf) after parentKey before
    missingKeys
  show Except.ok (hasProp (.obj targetOwn targetProto) key) = _
  rw [hasProp_own (hasOwn_of_getOwn hg)]

/-- C10 at the base `{"a":"1","b":{"c":"2"}}` and the target
`{"a":"x","b":"y"}`: the property `b` is dropped from the comparison, and
nothing is reported. -/
theorem compareKeys_type_mismatch_silent_witness :
    getOwn [(utf16 "a", leaf "x"), (utf16 "b", leaf "y")] (utf16 "b") = some (leaf "y") ∧
      typeofObject (leaf "y") = false ∧
      compareKeys nestedBase mismatchTarget [] [] =
        compareKeys (.obj [(utf16 "a", leaf "1")] none) mismatchTarget [] [] ∧
      compareKeys nestedBase mismatchTarget [] [] = .ok [] :=
  ⟨rfl, rfl,
    compareKeys_type_mismatch_silent [(utf16 "a", leaf "1")] [] (utf16 "b")
      (.obj [(utf16 "c", leaf "2")] none) none
      [(utf16 "a", leaf "x"), (utf16 "b", leaf "y")] none (leaf "y") [] [] rfl rfl,
    rfl⟩

/-! ## Claims about `checkTranslations` -/

theorem checkTranslations_run (disk : Disk) (hb : isDict disk.baseFile = true)
    (ht : isDict disk.targetFile = true) :
    ∃ baseData targetData missingKeys,
      readAndSortJson disk.baseFile = .ok baseData ∧
      readAndSortJson disk.targetFile = .ok targetData ∧
      compareKeys baseData targetData [] [] = .ok missingKeys ∧
      checkTranslations disk =
        if missingKeys.length > 0 then ⟨.exited 1, missingKeys, disk⟩
        else ⟨.completed, [], ⟨jsonDocument baseData, jsonDocument targetData⟩⟩ := by
  obtain ⟨baseData, h1⟩ := sortObject_total disk.baseFile hb
  obtain ⟨targetData, h2⟩ := sortObject_total disk.targetFile ht
  have g1 := sortObject_good h1
  have g2 := sortObject_good h2
  obtain ⟨L, hL, _⟩ := compareKeys_spec baseData (goodObj_isDict g1) (goodObj_noProtoKey g1) targetData (goodObj_isDict g2)
    [] []
  rw [List.nil_append] at hL
  refine ⟨baseData, targetData, L, h1, h2, hL, ?_⟩
  simp only [checkTranslations, readAndSortJson, h1, h2, hL]

/-- C2, as stated, fails.  For the files `{"b":"1","a":"2"}` and `{"a":"x"}`
the key `b` is reported missing and the run ends with status 1; the base file
still lists `b` before `a`, while its sorted form lists `a` before `b`. -/
theorem checkTranslations_failure_keeps_files :
    (checkTranslations failingDisk).logged = [utf16 "b"] ∧
      (checkTranslations failingDisk).status.exitCode = 1 ∧
      ownKeys (checkTranslations failingDisk).disk.baseFile = [utf16 "b", utf16 "a"] ∧
      (readAndSortJson failingDisk.baseFile).map (fun sorted => ownKeys (jsonDocument sorted)) =
        .ok [utf16 "a", utf16 "b"] := by
  refine ⟨rfl, rfl, rfl, rfl⟩

/-- C2, amended.  For every pair of locale dictionaries, both files are
sorted and compared.  When no key is missing, both files are rewritten with
their recursively sorted content; when `compareKeys` reports at least one
missing key, the run ends before the writes and both files are left as they
were. -/
theorem checkTranslations_rewrites_when_complete (disk : Disk)
    (hb : isDict disk.baseFile = true) (ht : isDict disk.targetFile = true) :
    ∃ baseData targetData missingKeys,
      readAndSortJson disk.baseFile = .ok baseData ∧
      readAndSortJson disk.targetFile = .ok targetData ∧
      compareKeys baseData targetData [] [] = .ok missingKeys ∧
      (missingKeys = [] →
        (checkTranslations disk).disk = ⟨jsonDocument baseData, jsonDocument targetData⟩) ∧
      (missingKeys ≠ [] → (checkTranslations disk).disk = disk) := by
  obtain ⟨baseData, targetData, L, h1, h2, h3, hrun⟩ := checkTranslations_run disk hb ht
  refine ⟨baseData, targetData, L, h1, h2, h3, fun hL => ?_, fun hL => ?_⟩
  · rw [hrun, hL]
    rfl
  · rw [hrun]
    cases L with
    | nil => exact absurd rfl hL
    | cons x xs => simp

/-- The amended C2 at the files `{"b":"1","a":"2"}` and `{"b":"x","a":"y"}`. -/
theorem checkTranslations_rewrites_when_complete_witness :
    isDict completeDisk.baseFile = true ∧ isDict completeDisk.targetFile = true ∧
      ∃ baseData targetData missingKeys,
        readAndSortJson completeDisk.baseFile = .ok baseData ∧
        readAndSortJson completeDisk.targetFile = .ok targetData ∧
        compareKeys baseData targetData [] [] = .ok missingKeys ∧
        (missingKeys = [] →
          (checkTranslations completeDisk).disk =
            ⟨jsonDocument baseData, jsonDocument targetData⟩) ∧
        (missingKeys ≠ [] → (checkTranslations completeDisk).disk = completeDisk) :=
  ⟨by decide, by decide,
    checkTranslations_rewrites_when_complete completeDisk (by decide) (by decide)⟩

/-- C3.  For every pair of locale dictionaries, both files are sorted and
compared without an exception, and the run ends with exit status 1 exactly
when `compareKeys` reported at least one missing key; when it reported none,
the run completes normally, with exit status 0. -/
theorem checkTranslations_exit_status (disk : Disk) (hb : isDict disk.baseFile = true)
    (ht : isDict disk.targetFile = true) :
    ∃ baseData targetData missingKeys,
      readAndSortJson disk.baseFile = .ok baseData ∧
      readAndSortJson disk.targetFile = .ok targetData ∧
      compareKeys baseData targetData [] [] = .ok missingKeys ∧
      ((checkTranslations disk).status.exitCode = 1 ↔ missingKeys ≠ []) ∧
      (missingKeys = [] →
        (checkTranslations disk).status = .completed ∧
          (checkTranslations disk).status.exitCode = 0) := by
  obtain ⟨baseData, targetData, L, h1, h2, h3, hrun⟩ := checkTranslations_run disk hb ht
  refine ⟨baseData, targetData, L, h1, h2, h3, ?_, fun hL => ?_⟩
  · rw [hrun]
    cases L with
    | nil => simp [Status.exitCode]
    | cons x xs => simp [Status.exitCode]
  · rw [hrun, hL]
    exact ⟨rfl, rfl⟩

/-- C3 at the files `{"b":"1","a":"2"}` and `{"a":"x"}`, where `b` is
missing. -/
theorem checkTranslations_exit_status_witness :
    isDict failingDisk.baseFile = true ∧ isDict failingDisk.targetFile = true ∧
      ∃ baseData targetData missingKeys,
        readAndSortJson failingDisk.baseFile = .ok baseData ∧
        readAndSortJson failingDisk.targetFile = .ok targetData ∧
        compareKeys baseData targetData [] [] = .ok missingKeys ∧
        ((checkTranslations failingDisk).status.exitCode = 1 ↔ missingKeys ≠ []) ∧
        (missingKeys = [] →
          (checkTranslations failingDisk).status = .completed ∧
            (checkTranslations failingDisk).status.exitCode = 0) :=
  ⟨by decide, by decide, checkTranslations_exit_status failingDisk (by decide) (by decide)⟩

/-! ## Claims about `sortObject` -/

/-- C4 fails on the code at `{"10":"b","9":"a"}`: the keys are assigned in
the order `10`, `9` that `sort` gives them, and the object built lists `9`
before `10`, although `"9"` does not precede `"10"` in code-unit order. -/
theorem sortObject_digit_keys_numeric :
    sortByKey [(utf16 "9", leaf "a"), (utf16 "10", leaf "b")] =
        [(utf16 "10", leaf "b"), (utf16 "9", leaf "a")] ∧
      (sortObject digitKeys).map ownKeys = .ok [utf16 "9", utf16 "10"] ∧
      codeUnitsLe (utf16 "9") (utf16 "10") = false := by
  refine ⟨rfl, rfl, rfl⟩

/-- C5 fails on the code at `{"b":"1","a":["x","y"]}`: the array at `a` is
replaced by the object `{"0":"x","1":"y"}`, which adds the key paths `a.0`
and `a.1`.  It also fails at `{"__proto__":"x","a":"1"}`, whose key
`__proto__` is dropped. -/
theorem sortObject_changes_entries :
    keyPaths arrayLeaf = [utf16 "b", utf16 "a"] ∧
      (sortObject arrayLeaf).map keyPaths =
        .ok [utf16 "a", utf16 "a.0", utf16 "a.1", utf16 "b"] ∧
      sortObject arrayLeaf =
        .ok (.obj [(utf16 "a", .obj [(utf16 "0", leaf "x"), (utf16 "1", leaf "y")] none),
          (utf16 "b", leaf "1")] none) ∧
      sortObject protoLeaf = .ok (.obj [(utf16 "a", leaf "1")] none) := by
  refine ⟨rfl, rfl, rfl, rfl⟩

/-- C6.  For every value `D`, sorting the sorted object gives the sorted
object again: `sortObject(sortObject(D))` and `sortObject(D)` hold the same
keys in the same order and the same leaves at every level (they are equal as
`ownContent` shows them, that is, but for a prototype that the first pass may
have replaced), and the one throws exactly when the other does. -/
theorem sortObject_idempotent (D : JSVal) :
    (sortObject D >>= sortObject).map ownContent = (sortObject D).map ownContent := by
  cases h : sortObject D with
  | error e => rfl
  | ok S =>
      show (sortObject S).map ownContent = _
      rw [sortObject_of_sorted S (sortObject_sorted h)]
      show Except.ok (ownContent (ownContent S)) = Except.ok (ownContent S)
      rw [ownContent_idem]

/-- C7 fails on the code at `{"tags":["b","a"]}`: the array is handed to
`sortObject`, which returns the object `{"0":"b","1":"a"}` in its place. -/
theorem sortObject_rebuilds_array :
    typeofObject (.arr [leaf "b", leaf "a"]) = true ∧
      sortObject withArray =
        .ok (.obj [(utf16 "tags", .obj [(utf16 "0", leaf "b"), (utf16 "1", leaf "a")] none)]
          none) := by
  refine ⟨rfl, rfl⟩

/-! ## When `sortObject` throws -/

theorem toBool_bind_pure {α β : Type} (x : Except JSError α) (f : α → β) :
    (x >>= fun a => pure (f a)).toBool = x.toBool := by
  cases x <;> rfl

theorem toBool_bind_bind_pure {α β γ : Type} (x : Except JSError α) (y : Except JSError β)
    (f : α → β → γ) :
    (x >>= fun a => y >>= fun b => pure (f a b)).toBool = (x.toBool && y.toBool) := by
  cases x <;> cases y <;> rfl

theorem nullFree_of_not_typeofObject {v : JSVal} (h : ¬ typeofObject v = true) :
    nullFree v = true := by
  cases v <;> first | rfl | simp [typeofObject] at h

mutual
theorem sortObject_toBool : ∀ v : JSVal, (sortObject v).toBool = nullFree v
  | .obj own proto => by
      rw [sortObject_obj, toBool_bind_pure, sortProps_toBool own]
      rfl
  | .arr items => by
      rw [sortObject_arr, toBool_bind_pure, sortItems_toBool items 0]
      rfl
  | .null => rfl
  | .bool _ => rfl
  | .num _ => rfl
  | .str _ => rfl
  | .objectPrototype => rfl
  | .arrayPrototype => rfl
theorem sortProps_toBool : ∀ l : Props, (sortProps l).toBool = nullFreeProps l
  | [] => rfl
  | (key, v) :: rest => by
      rw [sortProps_cons, toBool_bind_bind_pure, sortProps_toBool rest, nullFreeProps]
      by_cases hto : typeofObject v = true
      · simp only [hto, if_true, sortObject_toBool v]
      · simp only [hto, nullFree_of_not_typeofObject hto]
        rfl
theorem sortItems_toBool : ∀ (l : List JSVal) (i : Nat),
    (sortItems l i).toBool = nullFreeItems l
  | [], _ => rfl
  | v :: rest, i => by
      rw [sortItems_cons, toBool_bind_bind_pure, sortItems_toBool rest (i + 1), nullFreeItems]
      by_cases hto : typeofObject v = true
      · simp only [hto, if_true, sortObject_toBool v]
      · simp only [hto, nullFree_of_not_typeofObject hto]
        rfl
end

/-- C19.  For every value `D` that `JSON.parse` can return, `sortObject`
returns a result exactly when no value of `D`, at any path and inside arrays
too, is `null`; when some value is `null` it throws the `TypeError` of
`Object.keys(null)`, since `typeof null === 'object'` sends `null` into the
recursive call. -/
theorem sortObject_returns_iff_null_free (D : JSVal) :
    (sortObject D).toBool = nullFree D ∧
      (sortObject D = .error .typeError ∨ ∃ sorted, sortObject D = .ok sorted) ∧
      typeofObject .null = true ∧ sortObject .null = .error .typeError := by
  refine ⟨sortObject_toBool D, ?_, rfl, rfl⟩
  cases h : sortObject D with
  | error e =>
      cases e
      exact Or.inl rfl
  | ok S => exact Or.inr ⟨S, rfl⟩

/-! ## Claims about the exporter -/

theorem mapM_csvRow_strings (numberToString : Nat → JSString) :
    ∀ entries : List (JSString × JSString),
      (entries.map (fun e => (e.1, JSVal.str e.2))).mapM (csvRow numberToString) =
        .ok (entries.map
          (fun e => utf16 "\"" ++ e.1 ++ utf16 "\",\"" ++ e.2 ++ utf16 "\",\"\""))
  | [] => rfl
  | e :: rest => by
      rw [List.map_cons, List.mapM_cons, mapM_csvRow_strings numberToString rest]
      rfl

/-- C13.  For every flat dictionary of string values, the text the exporter
writes is the header line `"Key","English Value","Chinese Value"`, a line
feed, and the rows of the entries, in the order of the dictionary, joined by
line feeds; the row of an entry is `"<key>","<value>",""`, with the key and
the value as they are and an empty third field. -/
theorem exportCsv_text (numberToString : Nat → JSString)
    (entries : List (JSString × JSString)) (proto : Option JSVal) :
    (exportCsv numberToString
        (.obj (entries.map (fun e => (e.1, JSVal.str e.2))) proto)).written =
      some (utf16 "\"Key\",\"English Value\",\"Chinese Value\"" ++ [10] ++
        [10].intercalate (entries.map
          (fun e => [34] ++ e.1 ++ [34, 44, 34] ++ e.2 ++ [34, 44, 34, 34]))) := by
  simp only [exportCsv, csvFinal, objectEntries]
  have h := mapM_csvRow_strings numberToString entries
  simp only [bind, Except.bind, h, pure, Except.pure]
  rfl

theorem duplicateScan_foldl (keys : List JSString) :
    ∀ (seen dups : List JSString), (seen ++ keys).Nodup →
      keys.foldl
          (fun (st : List JSString × List JSString) key =>
            (if key ∈ st.1 then st.1 else st.1 ++ [key],
             if key ∈ st.1 then st.2 ++ [key] else st.2))
          (seen, dups) = (seen ++ keys, dups) := by
  induction keys with
  | nil => intro seen dups _; simp
  | cons key rest ih =>
      intro seen dups hn
      have hnot : key ∉ seen := by
        intro h
        rw [List.nodup_append] at hn
        exact hn.2.2 h (List.mem_cons_self _ _)
      rw [List.foldl_cons]
      simp only [hnot, if_false]
      rw [ih (seen ++ [key]) dups (by simpa using hn)]
      simp

/-- C15.  For every parsed dictionary, whose keys are distinct, the scan of
the exporter finds no duplicate key and the warning is not logged; the text
written is `csvFinal`, which does not depend on the scan. -/
theorem exportCsv_no_duplicates (numberToString : Nat → JSString) (own : Props)
    (hkeys : (own.map Prod.fst).Nodup) :
    (exportCsv numberToString (.obj own none)).duplicateKeys = [] ∧
      (exportCsv numberToString (.obj own none)).warned = false ∧
      (exportCsv numberToString (.obj own none)).written =
        (csvFinal numberToString (.obj own none)).toOption := by
  have h : duplicateScan (forInKeys (.obj own none)) = (own.map Prod.fst, []) := by
    have := duplicateScan_foldl (own.map Prod.fst) [] [] (by simpa using hkeys)
    simpa [duplicateScan, forInKeys] using this
  refine ⟨?_, ?_, ?_⟩
  · simp only [exportCsv, h]
  · simp only [exportCsv, h]
    rfl
  · simp only [exportCsv]
    cases csvFinal numberToString (.obj own none) <;> rfl

/-- C15 at the dictionary `{"a":"1","b":{"c":"2"}}`. -/
theorem exportCsv_no_duplicates_witness :
    ((ownProps nestedBase).map Prod.fst).Nodup ∧
      (exportCsv indexKey nestedBase).duplicateKeys = [] ∧
      (exportCsv indexKey nestedBase).warned = false ∧
      (exportCsv indexKey nestedBase).written = (csvFinal indexKey nestedBase).toOption :=
  ⟨by decide, exportCsv_no_duplicates indexKey (ownProps nestedBase) (by decide)⟩

/-! ## Assignments and lookups -/

theorem getOwn_ne_none_of_hasOwn : ∀ (own : Props) (key : JSString),
    hasOwn own key = true → getOwn own key ≠ none
  | [], _, h => by simp [hasOwn] at h
  | (k0, w) :: rest, key, h => by
      by_cases h0 : k0 = key
      · simp [getOwn, h0]
      · simp only [getOwn, h0, if_false]
        simp only [hasOwn, List.any_cons, Bool.or_eq_true, beq_iff_eq] at h
        exact getOwn_ne_none_of_hasOwn rest key (by rcases h with h | h; exact absurd h h0; exact h)

theorem replaceProp_cons (k0 : JSString) (w : JSVal) (rest : Props) (key : JSString)
    (v : JSVal) :
    replaceProp ((k0, w) :: rest) key v =
      (if k0 = key then (k0, v) else (k0, w)) :: replaceProp rest key v := rfl

theorem getOwn_replaceProp_general (own : Props) (key : JSString) (v : JSVal) (k : JSString) :
    getOwn (replaceProp own key v) k =
      if k = key then (getOwn own key).map (fun _ => v) else getOwn own k := by
  induction own with
  | nil => simp [replaceProp, getOwn]
  | cons e rest ih =>
      obtain ⟨k0, w⟩ := e
      rw [replaceProp_cons]
      by_cases h0 : k0 = key
      · rw [if_pos h0]
        by_cases hk : k = key
        · have h1 : k0 = k := h0.trans hk.symm
          simp [getOwn, h0, hk]
        · have h1 : ¬ k0 = k := fun h => hk (h.symm.trans h0)
          simp only [getOwn, h1, if_false, ih, hk]
      · rw [if_neg h0]
        by_cases hk : k = key
        · subst hk
          simp only [getOwn, h0, if_false, ih, if_true]
        · by_cases h1 : k0 = k
          · simp [getOwn, h1, hk]
          · simp only [getOwn, h1, if_false, ih, hk]

theorem getOwn_replaceProp (own : Props) (key : JSString) (v : JSVal) (k : JSString)
    (h : hasOwn own key = true) :
    getOwn (replaceProp own key v) k = if k = key then some v else getOwn own k := by
  rw [getOwn_replaceProp_general]
  by_cases hk : k = key
  · simp only [hk, if_true]
    cases hg : getOwn own key with
    | none => exact absurd hg (getOwn_ne_none_of_hasOwn own key h)
    | some w => rfl
  · simp only [hk, if_false]

theorem getOwn_addIndexProp (own : Props) (key : JSString) (v : JSVal) (k : JSString)
    (h : hasOwn own key = false) :
    getOwn (addIndexProp own key v) k = if k = key then some v else getOwn own k := by
  induction own with
  | nil =>
      by_cases hk : k = key
      · simp [addIndexProp, getOwn, hk]
      · have hk' : ¬ key = k := fun h => hk h.symm
        simp [addIndexProp, getOwn, hk, hk']
  | cons e rest ih =>
      obtain ⟨k0, w⟩ := e
      simp only [hasOwn, List.any_cons, Bool.or_eq_false_iff, beq_eq_false_iff_ne, ne_eq] at h
      have ih' := ih (by simpa [hasOwn] using h.2)
      simp only [addIndexProp]
      split
      · simp only [getOwn]
        by_cases hk : k0 = k
        · have hne : ¬ k = key := fun h' => h.1 (hk.trans h')
          simp [hk, hne]
        · simp only [hk, if_false]
          exact ih'
      · by_cases hk : k = key
        · simp [getOwn, hk]
        · have hk' : ¬ key = k := fun h => hk h.symm
          simp [getOwn, hk, hk']

theorem getOwn_append_new (own : Props) (key : JSString) (v : JSVal) (k : JSString)
    (h : hasOwn own key = false) :
    getOwn (own ++ [(key, v)]) k = if k = key then some v else getOwn own k := by
  induction own with
  | nil =>
      by_cases hk : k = key
      · simp [getOwn, hk]
      · have hk' : ¬ key = k := fun h => hk h.symm
        simp [getOwn, hk, hk']
  | cons e rest ih =>
      obtain ⟨k0, w⟩ := e
      simp only [hasOwn, List.any_cons, Bool.or_eq_false_iff, beq_eq_false_iff_ne, ne_eq] at h
      have ih' := ih (by simpa [hasOwn] using h.2)
      simp only [List.cons_append, getOwn]
      by_cases hk : k0 = k
      · have hne : ¬ k = key := fun h' => h.1 (hk.trans h')
        simp [hk, hne]
      · simp only [hk, if_false]
        exact ih'

theorem getOwn_addProp (own : Props) (key : JSString) (v : JSVal) (k : JSString)
    (h : hasOwn own key = false) :
    getOwn (addProp own key v) k = if k = key then some v else getOwn own k := by
  unfold addProp
  split
  · exact getOwn_addIndexProp own key v k h
  · exact getOwn_append_new own key v k h

theorem setProp_lookup (own : Props) (proto : Option JSVal) (key : JSString) (v : JSVal)
    (hk : key ≠ protoKey) :
    ∃ own', setProp (.obj own proto) key v = .obj own' proto ∧
      ∀ k, getOwn own' k = if k = key then some v else getOwn own k := by
  by_cases h : hasOwn own key = true
  · exact ⟨replaceProp own key v, by simp [setProp, h],
      fun k => getOwn_replaceProp own key v k h⟩
  · have h' : hasOwn own key = false := by simpa using h
    exact ⟨addProp own key v, by simp [setProp, h', hk],
      fun k => getOwn_addProp own key v k h'⟩

theorem hasOwn_iff_getOwn (own : Props) (key : JSString) :
    hasOwn own key = true ↔ getOwn own key ≠ none := by
  constructor
  · exact getOwn_ne_none_of_hasOwn own key
  · intro h
    cases hg : getOwn own key with
    | none => exact absurd hg h
    | some v => exact hasOwn_of_getOwn hg

/-! ## The state of the converter -/

theorem occursIn_append (rows : List Row) (r : Row) (key : JSString) :
    occursIn (rows ++ [r]) key = (occursIn rows key || trim r.key == key) := by
  simp [occursIn]

theorem firstNonEmpty_append (rows : List Row) (r : Row) (key : JSString) :
    firstNonEmpty (rows ++ [r]) key =
      if firstNonEmpty rows key ≠ [] then firstNonEmpty rows key
      else if trim r.key = key then chosenValue r else [] := by
  unfold firstNonEmpty
  rw [List.find?_append]
  cases hf : rows.find? (fun row => trim row.key == key && decide (chosenValue row ≠ [])) with
  | some row =>
      have hp := List.find?_some hf
      simp only [Bool.and_eq_true, decide_eq_true_eq] at hp
      simp [hp.2]
  | none =>
      by_cases hk : trim r.key = key
      · by_cases hc : chosenValue r = []
        · simp [List.find?, hk, hc]
        · simp [List.find?, hk, hc]
      · have hb : (trim r.key == key) = false := by simp [hk]
        simp [List.find?, hk, hb]

theorem firstNonEmpty_of_not_occurs (rows : List Row) (key : JSString)
    (h : occursIn rows key = false) : firstNonEmpty rows key = [] := by
  unfold firstNonEmpty
  have : rows.find? (fun row => trim row.key == key && decide (chosenValue row ≠ [])) = none := by
    rw [List.find?_eq_none]
    intro row hrow
    simp only [occursIn, List.any_eq_false, beq_iff_eq] at h
    simp [h row hrow]
  rw [this]

theorem truthyAt_obj (own : Props) (key : JSString) :
    truthyAt (.obj own none) key =
      match getOwn own key with
      | some w => isTruthy w
      | none => decide (key ∈ objectPrototypeNames) := by
  unfold truthyAt
  simp only [findData]
  cases getOwn own key <;> simp [reachesObjectPrototype]

theorem protoKey_mem_names : protoKey ∈ objectPrototypeNames := by decide

theorem convert_state (rows : List Row) :
    ∃ own, (rows.foldl onData ⟨.obj [] none, []⟩).jsonData = .obj own none ∧
      (∀ key, getOwn own key = storedValue rows key) ∧
      ∀ key, key ∈ (rows.foldl onData ⟨.obj [] none, []⟩).orderedKeys ↔
        getOwn own key ≠ none := by
  induction rows using List.reverseRecOn with
  | nil => exact ⟨[], rfl, fun key => by simp [storedValue, occursIn, getOwn], by simp [getOwn]⟩
  | append_singleton rows r ih =>
      obtain ⟨own, hdata, hget, hkeys⟩ := ih
      rw [List.foldl_append, List.foldl_cons, List.foldl_nil]
      generalize rows.foldl onData ⟨.obj [] none, []⟩ = st at hdata hkeys
      obtain ⟨data, ordered⟩ := st
      simp only at hdata hkeys
      subst hdata
      have hother : ∀ key, ¬ key = trim r.key →
          storedValue (rows ++ [r]) key = storedValue rows key := by
        intro key hne
        have hne' : ¬ trim r.key = key := fun h => hne h.symm
        by_cases he : firstNonEmpty rows key = []
        · simp [storedValue, occursIn_append, firstNonEmpty_append, hne', he]
        · simp [storedValue, occursIn_append, firstNonEmpty_append, hne', he]
      by_cases hskip : truthyAt (.obj own none) (trim r.key) = true
      · have hstep : onData ⟨.obj own none, ordered⟩ r = ⟨.obj own none, ordered⟩ := by
          simp [onData, hskip]
        rw [hstep]
        refine ⟨own, rfl, fun key => ?_, hkeys⟩
        by_cases hk : key = trim r.key
        · subst hk
          rw [hget]
          rw [truthyAt_obj, hget] at hskip
          by_cases hname : trim r.key ∈ objectPrototypeNames
          · simp [storedValue, hname]
          · by_cases hocc : occursIn rows (trim r.key) = true
            · simp only [storedValue, hocc, hname, not_false_eq_true, decide_True, Bool.and_self,
                if_true, isTruthy, decide_eq_true_eq] at hskip
              simp [storedValue, hocc, hname, occursIn_append, firstNonEmpty_append, hskip]
            · simp [storedValue, hocc, hname] at hskip
        · rw [hget, hother key hk]
      · have hname : trim r.key ∉ objectPrototypeNames := by
          intro hname
          rw [truthyAt_obj, hget] at hskip
          simp [storedValue, hname] at hskip
        have hproto : trim r.key ≠ protoKey := fun h => hname (h ▸ protoKey_mem_names)
        have hempty : firstNonEmpty rows (trim r.key) = [] := by
          by_cases hocc : occursIn rows (trim r.key) = true
          · rw [truthyAt_obj, hget] at hskip
            simpa [storedValue, hocc, hname, isTruthy] using hskip
          · exact firstNonEmpty_of_not_occurs rows _ (by simpa using hocc)
        obtain ⟨own', hset, hlook⟩ := setProp_lookup own none (trim r.key)
          (.str (chosenValue r)) hproto
        have hstep : onData ⟨.obj own none, ordered⟩ r =
            ⟨.obj own' none, ordered ++ [trim r.key]⟩ := by
          simp only [onData, hskip, Bool.not_false, if_true]
          rw [← hset]
          rfl
        rw [hstep]
        refine ⟨own', rfl, fun key => ?_, fun key => ?_⟩
        · rw [hlook]
          by_cases hk : key = trim r.key
          · subst hk
            simp [storedValue, occursIn_append, hname, firstNonEmpty_append, hempty]
          · simp only [hk, if_false]
            rw [hget, hother key hk]
        · rw [hlook, List.mem_append, hkeys]
          by_cases hk : key = trim r.key
          · simp [hk]
          · simp [hk]

/-! ## Claims about the converter -/

theorem sortedJson_fold (own : Props)
    (hown : ∀ key v, getOwn own key = some v → key ≠ protoKey ∧ isLeaf v = true) :
    ∀ (ks : List JSString) (acc : Props), GoodObj (.obj acc none) →
      ∃ out,
        ks.foldl
            (fun a key =>
              match getOwn own key with
              | some v => setProp a key v
              | none => a)
            (.obj acc none) = .obj out none ∧
          GoodObj (.obj out none) ∧
          ∀ key, getOwn out key =
            if key ∈ ks ∧ (getOwn own key).isSome = true then getOwn own key
            else getOwn acc key := by
  intro ks
  induction ks with
  | nil => exact fun acc hacc => ⟨acc, rfl, hacc, fun key => by simp⟩
  | cons k rest ih =>
      intro acc hacc
      rw [List.foldl_cons]
      cases hg : getOwn own k with
      | none =>
          obtain ⟨out, hout, hgood, hlook⟩ := ih acc hacc
          refine ⟨out, hout, hgood, fun key => ?_⟩
          rw [hlook]
          by_cases hk : key = k
          · subst hk
            simp [hg]
          · simp [hk]
      | some v =>
          obtain ⟨hproto, hleaf⟩ := hown k v hg
          obtain ⟨acc', hset, hacc'⟩ := setProp_lookup acc none k v hproto
          have hgood' : GoodObj (.obj acc' none) := by
            rw [← hset]
            exact setProp_good hacc k (Or.inl hleaf)
          obtain ⟨out, hout, hgood, hlook⟩ := ih acc' hgood'
          refine ⟨out, by simp only [hset]; exact hout, hgood, fun key => ?_⟩
          rw [hlook, hacc']
          by_cases hk : key = k
          · subst hk
            simp [hg]
          · simp [hk]

theorem csvToJson_lookup (rows : List Row) :
    ∃ out, csvToJson rows = .obj out none ∧ (out.map Prod.fst).Nodup ∧
      ∀ key, getOwn out key = storedValue rows key := by
  obtain ⟨own, hdata, hget, hkeys⟩ := convert_state rows
  have hown : ∀ key v, getOwn own key = some v → key ≠ protoKey ∧ isLeaf v = true := by
    intro key v hv
    rw [hget] at hv
    unfold storedValue at hv
    split at hv
    · rename_i hc
      simp only [Bool.and_eq_true, decide_eq_true_eq] at hc
      cases hv
      exact ⟨fun h => hc.2 (h ▸ protoKey_mem_names), rfl⟩
    · cases hv
  obtain ⟨out, hout, hgood, hlook⟩ := sortedJson_fold own hown
    (rows.foldl onData ⟨.obj [] none, []⟩).orderedKeys [] goodObj_empty
  have hcsv : csvToJson rows = .obj out none := by
    unfold csvToJson sortedJson
    rw [hdata]
    exact hout
  obtain ⟨o, p, heq, hn, _, _⟩ := hgood
  cases heq
  refine ⟨out, hcsv, hn, fun key => ?_⟩
  rw [hlook, ← hget]
  cases hnone : getOwn own key with
  | none => simp [getOwn]
  | some v =>
      have hmem := (hkeys key).2 (by rw [hnone]; simp)
      simp [hmem]

/-- C11, as stated, fails.  For the rows `("a","","")`, `("a","x","")` the
first row carrying `a` gives the empty string, yet the output maps `a` to `x`,
the value of the later row.  For the row `(" a "," x ","")` the output maps
the trimmed key `a` to the trimmed value `x`; the key ` a ` of the row is not
in the output.  And the row `("constructor","x","")` leaves no entry, because
`jsonData["constructor"]` is truthy from the start. -/
theorem csvToJson_later_row_overrides_empty :
    csvToJson [row "a" "" "", row "a" "x" ""] = .obj [(utf16 "a", leaf "x")] none ∧
      csvToJson [row " a " " x " ""] = .obj [(utf16 "a", leaf "x")] none ∧
      csvToJson [row "constructor" "x" ""] = .obj [] none := by
  refine ⟨rfl, rfl, rfl⟩

theorem firstNonEmpty_first_row (before after : List Row) (r : Row)
    (hfirst : ∀ r' ∈ before, trim r'.key ≠ trim r.key) (hvalue : chosenValue r ≠ []) :
    firstNonEmpty (before ++ r :: after) (trim r.key) = chosenValue r := by
  unfold firstNonEmpty
  rw [List.find?_append]
  have hnone : before.find?
      (fun row => trim row.key == trim r.key && decide (chosenValue row ≠ [])) = none := by
    rw [List.find?_eq_none]
    intro r' hr'
    simp [hfirst r' hr']
  rw [hnone]
  simp [List.find?, hvalue]

/-- C11, amended.  For every sequence of rows and every row of it that is the
first to carry its key (keys compared after trimming), if the key, trimmed, is
not the name of a property of `Object.prototype` and the value chosen for the
row is not empty, the output maps the trimmed key to that value: the trimmed
Chinese value of the row if it is not empty, otherwise its trimmed English
value.  The rows after it do not change the entry. -/
theorem csvToJson_first_row_wins (before after : List Row) (r : Row)
    (hfirst : ∀ r' ∈ before, trim r'.key ≠ trim r.key)
    (hname : trim r.key ∉ objectPrototypeNames)
    (hvalue : (if trim r.chinese ≠ [] then trim r.chinese else trim r.english) ≠ []) :
    getOwn (ownProps (csvToJson (before ++ r :: after))) (trim r.key) =
      some (.str (if trim r.chinese ≠ [] then trim r.chinese else trim r.english)) := by
  obtain ⟨out, hout, _, hlook⟩ := csvToJson_lookup (before ++ r :: after)
  rw [hout]
  show getOwn out (trim r.key) = _
  rw [hlook]
  have hocc : occursIn (before ++ r :: after) (trim r.key) = true := by
    simp [occursIn]
  have := firstNonEmpty_first_row before after r hfirst hvalue
  simp only [storedValue, hocc, hname, not_false_eq_true, decide_True, Bool.and_self, if_true,
    this]
  rfl

/-- The amended C11 at the rows `("b","1","")`, `("a","Hello","你好")`,
`("a","Bye","再见")`: the output maps `a` to `你好`. -/
theorem csvToJson_first_row_wins_witness :
    (∀ r' ∈ [row "b" "1" ""], trim r'.key ≠ trim (row "a" "Hello" "你好").key) ∧
      trim (row "a" "Hello" "你好").key ∉ objectPrototypeNames ∧
      getOwn (ownProps (csvToJson
          ([row "b" "1" ""] ++ row "a" "Hello" "你好" :: [row "a" "Bye" "再见"])))
          (trim (row "a" "Hello" "你好").key) =
        some (.str (if trim (row "a" "Hello" "你好").chinese ≠ []
          then trim (row "a" "Hello" "你好").chinese
          else trim (row "a" "Hello" "你好").english)) :=
  ⟨by decide, by decide,
    csvToJson_first_row_wins [row "b" "1" ""] [row "a" "Bye" "再见"] (row "a" "Hello" "你好")
      (by decide) (by decide) (by decide)⟩

/-- C12 fails on the code for the rows `("2","two","")`, `("1","one","")`:
the keys first occur in the order `2`, `1`, and the output lists `1` before
`2`, because an object lists its array-index keys in numeric order. -/
theorem csvToJson_index_keys_reordered :
    firstOccurrences [row "2" "two" "", row "1" "one" ""] = [utf16 "2", utf16 "1"] ∧
      ownKeys (csvToJson [row "2" "two" "", row "1" "one" ""]) = [utf16 "1", utf16 "2"] := by
  refine ⟨by decide, rfl⟩

/-- C16 fails on the code for a key that is the name of a property of
`Object.prototype`: the row `("constructor","x","")` carries the key
`constructor` and a value that is not empty, and the output has no entry,
because `jsonData["constructor"]` is truthy before any row is stored. -/
theorem csvToJson_skips_inherited_name :
    occursIn [row "constructor" "x" ""] (utf16 "constructor") = true ∧
      firstNonEmpty [row "constructor" "x" ""] (utf16 "constructor") = utf16 "x" ∧
      csvToJson [row "constructor" "x" ""] = .obj [] none := by
  refine ⟨by decide, by decide, rfl⟩

/-- The rule of C16 on every other key.  For every sequence of rows and every
key that some row carries and that is not the name of a property of
`Object.prototype`, the output maps the key to the chosen value (trimmed
Chinese, else trimmed English) of the first row with that key whose chosen
value is not empty, or to the empty string if no row with that key has one;
and the key appears in the output, in which no key appears twice. -/
theorem csvToJson_first_non_empty (rows : List Row) (key : JSString)
    (hocc : occursIn rows key = true) (hname : key ∉ objectPrototypeNames) :
    getOwn (ownProps (csvToJson rows)) key = some (.str (firstNonEmpty rows key)) ∧
      key ∈ ownKeys (csvToJson rows) ∧ (ownKeys (csvToJson rows)).Nodup := by
  obtain ⟨out, hout, hn, hlook⟩ := csvToJson_lookup rows
  rw [hout]
  have hval : getOwn out key = some (.str (firstNonEmpty rows key)) := by
    rw [hlook]
    simp [storedValue, hocc, hname]
  exact ⟨hval, List.mem_map.2 ⟨_, getOwn_mem hval, rfl⟩, hn⟩

/-- The rule of C16 at the rows `("a","","")`, `("a","x","")`: the first row
has two empty values and the later row decides. -/
theorem csvToJson_first_non_empty_witness :
    occursIn [row "a" "" "", row "a" "x" ""] (utf16 "a") = true ∧
      utf16 "a" ∉ objectPrototypeNames ∧
      firstNonEmpty [row "a" "" "", row "a" "x" ""] (utf16 "a") = utf16 "x" ∧
      (getOwn (ownProps (csvToJson [row "a" "" "", row "a" "x" ""])) (utf16 "a") =
          some (.str (firstNonEmpty [row "a" "" "", row "a" "x" ""] (utf16 "a"))) ∧
        utf16 "a" ∈ ownKeys (csvToJson [row "a" "" "", row "a" "x" ""]) ∧
        (ownKeys (csvToJson [row "a" "" "", row "a" "x" ""])).Nodup) :=
  ⟨by decide, by decide, by decide,
    csvToJson_first_non_empty [row "a" "" "", row "a" "x" ""] (utf16 "a") (by decide)
      (by decide)⟩

/-! ## The converter followed by the exporter -/

theorem setProp_empty (key : JSString) (v : JSVal) (hk : key ≠ protoKey) :
    setProp (.obj [] none) key v = .obj [(key, v)] none := by
  simp only [setProp, hasOwn, List.any_nil, Bool.false_eq_true, if_false, hk, addProp]
  split <;> rfl

theorem csvToJson_single (r : Row) (hname : trim r.key ∉ objectPrototypeNames) :
    csvToJson [r] = .obj [(trim r.key, .str (chosenValue r))] none := by
  have hk : trim r.key ≠ protoKey := fun h => hname (h ▸ protoKey_mem_names)
  have hskip : truthyAt (.obj [] none) (trim r.key) = false := by
    rw [truthyAt_obj]
    simp [getOwn, hname]
  have hstep : onData ⟨.obj [] none, []⟩ r =
      ⟨.obj [(trim r.key, .str (chosenValue r))] none, [trim r.key]⟩ := by
    simp only [onData, hskip, Bool.not_false, if_true, List.nil_append]
    rw [setProp_empty _ _ hk]
    rfl
  simp only [csvToJson, List.foldl_cons, List.foldl_nil, hstep, sortedJson, ownProps, getOwn,
    if_true]
  exact setProp_empty _ _ hk

/-- C14, as stated, fails.  For the row `("greeting","Hello"," 你好")` the
Chinese value is not empty, and the JSON holds the trimmed value `你好`, not
the value of the row.  For `("greeting","Hello"," ")` the Chinese value is not
empty either, and the JSON holds the English value.  For
`("toString","Hello","你好")` the JSON is `{}`. -/
theorem roundTrip_trims_values :
    csvToJson [row "greeting" "Hello" " 你好"] = .obj [(utf16 "greeting", leaf "你好")] none ∧
      utf16 " 你好" ≠ utf16 "你好" ∧
      csvToJson [row "greeting" "Hello" " "] = .obj [(utf16 "greeting", leaf "Hello")] none ∧
      utf16 " " ≠ [] ∧
      csvToJson [row "toString" "Hello" "你好"] = .obj [] none := by
  refine ⟨rfl, by decide, rfl, by decide, rfl⟩

/-- C14, amended.  For every row whose Chinese value is not empty once
trimmed and whose key, trimmed, is not the name of a property of
`Object.prototype`, converting the one-row CSV yields the dictionary that maps
the trimmed key to the trimmed Chinese value, and exporting the JSON written
yields the header line followed by the row `"k","c",""` of the trimmed key and
the trimmed Chinese value: the English value is lost and the Chinese value
lands in the second column. -/
theorem roundTrip_one_row (numberToString : Nat → JSString) (r : Row)
    (hc : trim r.chinese ≠ []) (hname : trim r.key ∉ objectPrototypeNames) :
    csvToJson [r] = .obj [(trim r.key, .str (trim r.chinese))] none ∧
      (exportCsv numberToString (jsonDocument (csvToJson [r]))).written =
        some (utf16 "\"Key\",\"English Value\",\"Chinese Value\"" ++ [10] ++
          ([34] ++ trim r.key ++ [34, 44, 34] ++ trim r.chinese ++ [34, 44, 34, 34])) := by
  have hchosen : chosenValue r = trim r.chinese := by simp [chosenValue, hc]
  have hjson := csvToJson_single r hname
  rw [hchosen] at hjson
  refine ⟨hjson, ?_⟩
  rw [hjson]
  have hdoc : jsonDocument (.obj [(trim r.key, .str (trim r.chinese))] none) =
      .obj ([(trim r.key, trim r.chinese)].map (fun e => (e.1, JSVal.str e.2))) none := by
    simp [jsonDocument, jsonDocumentProps]
  rw [hdoc]
  simp only [exportCsv, csvFinal, objectEntries]
  have h := mapM_csvRow_strings numberToString [(trim r.key, trim r.chinese)]
  have h1 : utf16 "\"" = [34] := by decide
  have h2 : utf16 "\",\"" = [34, 44, 34] := by decide
  have h3 : utf16 "\",\"\"" = [34, 44, 34, 34] := by decide
  have h4 : csvHeader = utf16 "\"Key\",\"English Value\",\"Chinese Value\"" ++ [10] := by
    decide
  simp only [bind, Except.bind, h, pure, Except.pure]
  simp only [List.map_cons, List.map_nil, h1, h2, h3, h4, List.intercalate, List.intersperse,
    List.flatten, List.append_nil]

/-- The amended C14 at the row `("greeting","Hello","你好")`: the JSON is
`{"greeting":"你好"}` and the exported row is `"greeting","你好",""`. -/
theorem roundTrip_one_row_witness :
    trim (row "greeting" "Hello" "你好").chinese ≠ [] ∧
      trim (row "greeting" "Hello" "你好").key ∉ objectPrototypeNames ∧
      trim (row "greeting" "Hello" "你好").key = utf16 "greeting" ∧
      trim (row "greeting" "Hello" "你好").chinese = utf16 "你好" ∧
      (csvToJson [row "greeting" "Hello" "你好"] =
          .obj [(trim (row "greeting" "Hello" "你好").key,
            .str (trim (row "greeting" "Hello" "你好").chinese))] none ∧
        (exportCsv indexKey (jsonDocument (csvToJson [row "greeting" "Hello" "你好"]))).written =
          some (utf16 "\"Key\",\"English Value\",\"Chinese Value\"" ++ [10] ++
            ([34] ++ trim (row "greeting" "Hello" "你好").key ++ [34, 44, 34] ++
              trim (row "greeting" "Hello" "你好").chinese ++ [34, 44, 34, 34]))) ∧
      (exportCsv indexKey (jsonDocument (csvToJson [row "greeting" "Hello" "你好"]))).written =
        some (utf16 "\"Key\",\"English Value\",\"Chinese Value\"\n\"greeting\",\"你好\",\"\"") :=
  ⟨by decide, by decide, by decide, by decide,
    roundTrip_one_row indexKey (row "greeting" "Hello" "你好") (by decide) (by decide), rfl⟩

/-! ## Targets with more keys -/

theorem compareKeys_plain_spec (base target : JSVal) (parentKey : JSString)
    (hb : isPlainDict base = true) (hk : noInheritedKey base = true)
    (ht : isPlainDict target = true) :
    ∃ L, compareKeys base target parentKey [] = .ok L ∧
      ∀ p, p ∈ L ↔
        ∃ ks k b t, descendOwn base target ks = some (b, t) ∧ k ∈ ownKeys b ∧
          k ∉ ownKeys t ∧ p = pathOf parentKey (ks ++ [k]) := by
  obtain ⟨L, hL, hmem⟩ := compareKeys_spec base (isDict_of_plain base hb)
    (noProtoKey_of_noInherited base hk) target (isDict_of_plain target ht) parentKey []
  refine ⟨L, by simpa using hL, fun p => ?_⟩
  have key : ∀ (ks : List JSString) (k : JSString) (b t : JSVal),
      descendOwn base target ks = some (b, t) → k ∈ ownKeys b →
        (hasProp t k = false ↔ k ∉ ownKeys t) := by
    intro ks k b t hd hkb
    obtain ⟨pb, nb, pt⟩ := (descend_plain ks base target hb hk ht).2 (b, t) hd
    obtain ⟨bown, rfl, _, _⟩ := isPlainDict_obj pb
    obtain ⟨town, rfl, _, _⟩ := isPlainDict_obj pt
    obtain ⟨e, he, hek⟩ := List.mem_map.1 hkb
    have hname : k ∉ objectPrototypeNames :=
      hek ▸ ((noInheritedKeyProps_iff bown).1 nb e he).1
    rw [hasProp_plain hname]
    show hasOwn town k = false ↔ k ∉ town.map Prod.fst
    rw [← hasOwn_iff]
    simp
  rw [hmem]
  constructor
  · rintro ⟨ks, k, b, t, hd, hkb, hh, hp⟩
    rw [(descend_plain ks base target hb hk ht).1] at hd
    exact ⟨ks, k, b, t, hd, hkb, (key ks k b t hd hkb).1 hh, hp⟩
  · rintro ⟨ks, k, b, t, hd, hkb, hh, hp⟩
    refine ⟨ks, k, b, t, ?_, hkb, (key ks k b t hd hkb).2 hh, hp⟩
    rw [(descend_plain ks base target hb hk ht).1]
    exact hd

theorem extendsProps_iff (own own' : Props) :
    extendsProps own own' = true ↔
      ∀ e ∈ own, ∃ v', getOwn own' e.1 = some v' ∧
        if typeofObject e.2 then extendsDict e.2 v' = true else sameLeaf e.2 v' = true := by
  induction own with
  | nil => simp [extendsProps]
  | cons e rest ih =>
      obtain ⟨k, v⟩ := e
      simp only [extendsProps, Bool.and_eq_true, ih, List.mem_cons, forall_eq_or_imp]
      constructor
      · rintro ⟨h1, h2⟩
        refine ⟨?_, h2⟩
        cases hg : getOwn own' k with
        | none => simp [hg] at h1
        | some v' =>
            rw [hg] at h1
            refine ⟨v', rfl, ?_⟩
            by_cases hto : typeofObject v = true
            · simpa [hto] using h1
            · simpa [hto] using h1
      · rintro ⟨⟨v', hg, h1⟩, h2⟩
        refine ⟨?_, h2⟩
        rw [hg]
        by_cases hto : typeofObject v = true
        · simpa [hto] using h1
        · simpa [hto] using h1

theorem mem_ownKeys_iff (own : Props) (proto : Option JSVal) (key : JSString) :
    key ∈ ownKeys (.obj own proto) ↔ getOwn own key ≠ none := by
  show key ∈ own.map Prod.fst ↔ _
  rw [← hasOwn_iff, hasOwn_iff_getOwn]

theorem descendOwn_cons {bown town : Props} {bp tp : Option JSVal} {key : JSString}
    {ks : List JSString} {r : JSVal × JSVal} :
    descendOwn (.obj bown bp) (.obj town tp) (key :: ks) = some r ↔
      ∃ bv tv, getOwn bown key = some bv ∧ getOwn town key = some tv ∧
        isPlainDict bv = true ∧ isPlainDict tv = true ∧ descendOwn bv tv ks = some r := by
  rw [descendOwn]
  cases hb : getOwn bown key with
  | none => simp
  | some bv =>
      cases ht : getOwn town key with
      | none => simp
      | some tv =>
          by_cases h1 : isPlainDict bv = true
          · by_cases h2 : isPlainDict tv = true
            · simp [h1, h2]
            · simp [h1, h2]
          · simp [h1]

theorem sameLeaf_not_plain {v v' : JSVal} (h : sameLeaf v v' = true) :
    isPlainDict v' = false := by
  cases v <;> cases v' <;> first | rfl | simp [sameLeaf] at h

theorem descendOwn_extends : ∀ (ks : List JSString) (base target target' : JSVal),
    isPlainDict base = true → isPlainDict target = true → isPlainDict target' = true →
    extendsDict target target' = true →
    ∀ b t', descendOwn base target' ks = some (b, t') →
      (∃ t, descendOwn base target ks = some (b, t) ∧ isPlainDict t = true ∧
        extendsDict t t' = true) ∨
      ∃ pre k post bn tn, ks = pre ++ k :: post ∧
        descendOwn base target pre = some (bn, tn) ∧ k ∈ ownKeys bn ∧ k ∉ ownKeys tn
  | [], base, target, target', _, ht, _, hext, b, t', hd => by
      rw [descendOwn_nil] at hd
      cases hd
      exact Or.inl ⟨target, descendOwn_nil _ _, ht, hext⟩
  | key :: ks, base, target, target', hb, ht, ht', hext, b, t', hd => by
      obtain ⟨bown, rfl, _, hbp⟩ := isPlainDict_obj hb
      obtain ⟨town, rfl, _, htp⟩ := isPlainDict_obj ht
      obtain ⟨town', rfl, _, _⟩ := isPlainDict_obj ht'
      obtain ⟨bv, tv', hgb, hgt', pbv, ptv', hd'⟩ := descendOwn_cons.1 hd
      cases hgt : getOwn town key with
      | none =>
          refine Or.inr ⟨[], key, ks, _, _, rfl, descendOwn_nil _ _, ?_, ?_⟩
          · exact (mem_ownKeys_iff bown none key).2 (by rw [hgb]; simp)
          · exact fun h => (mem_ownKeys_iff town none key).1 h hgt
      | some tv =>
          have hext' : extendsProps town town' = true := by simpa [extendsDict] using hext
          obtain ⟨v', hv', hrel⟩ := (extendsProps_iff town town').1 hext' _ (getOwn_mem hgt)
          simp only at hv' hrel
          rw [hgt'] at hv'
          cases hv'
          by_cases hto : typeofObject tv = true
          · simp only [hto, if_true] at hrel
            have ptv : isPlainDict tv = true :=
              plain_of_typeofObject ((plainProps_iff town).1 htp _ (getOwn_mem hgt)) hto
            rcases descendOwn_extends ks bv tv tv' pbv ptv ptv' hrel b t' hd' with
              ⟨t, hdt, pt, et⟩ | ⟨pre, k, post, bn, tn, hks, hdt, hkb, hkt⟩
            · exact Or.inl ⟨t, descendOwn_cons.2 ⟨bv, tv, hgb, hgt, pbv, ptv, hdt⟩, pt, et⟩
            · exact Or.inr ⟨key :: pre, k, post, bn, tn, by rw [hks]; rfl,
                descendOwn_cons.2 ⟨bv, tv, hgb, hgt, pbv, ptv, hdt⟩, hkb, hkt⟩
          · simp only [hto] at hrel
            have := sameLeaf_not_plain hrel
            rw [ptv'] at this
            cases this

theorem hasKeyPath_of_descendOwn : ∀ (ks : List JSString) (base target : JSVal) (b t : JSVal)
    (k : JSString), descendOwn base target ks = some (b, t) → k ∈ ownKeys b →
    hasKeyPath base (ks ++ [k]) = true
  | [], base, target, b, t, k, hd, hk => by
      rw [descendOwn_nil] at hd
      cases hd
      cases base with
      | obj own proto =>
          exact (hasOwn_iff own k).2 hk
      | _ => simp [ownKeys] at hk
  | key :: ks, base, target, b, t, k, hd, hk => by
      cases base with
      | obj bown bp =>
          cases target with
          | obj town tp =>
              obtain ⟨bv, tv, hgb, _, _, _, hd'⟩ := descendOwn_cons.1 hd
              have ih := hasKeyPath_of_descendOwn ks bv tv b t k hd' hk
              cases ks with
              | nil => simpa [hasKeyPath, hgb] using ih
              | cons next more => simpa [hasKeyPath, hgb] using ih
          | _ => simp [descendOwn] at hd
      | _ => simp [descendOwn] at hd

theorem extends_keys {t t' : JSVal} (ht : isPlainDict t = true) (hext : extendsDict t t' = true)
    {k : JSString} (hk : k ∈ ownKeys t) : k ∈ ownKeys t' := by
  obtain ⟨town, rfl, _, _⟩ := isPlainDict_obj ht
  cases t' with
  | obj town' tp =>
      cases tp with
      | none =>
          have hext' : extendsProps town town' = true := by simpa [extendsDict] using hext
          obtain ⟨e, he, hek⟩ := List.mem_map.1 hk
          obtain ⟨v', hv', _⟩ := (extendsProps_iff town town').1 hext' e he
          rw [hek] at hv'
          exact (mem_ownKeys_iff town' none k).2 (by rw [hv']; simp)
      | some p => simp [extendsDict] at hext
  | _ => simp [extendsDict] at hext

/-- C17, as stated, fails.  The target `{"b":{}}` is the target `{}` with the
key `b` added; for the base `{"b":{"c":"2"}}` it makes `compareKeys` report
`b.c`, which is not reported for `{}`, where `b` is. -/
theorem compareKeys_added_key_new_path :
    extendsDict emptyDict childTarget = true ∧
      compareKeys childBase emptyDict [] [] = .ok [utf16 "b"] ∧
      compareKeys childBase childTarget [] [] = .ok [utf16 "b.c"] ∧
      utf16 "b.c" ∉ [utf16 "b"] := by
  refine ⟨rfl, rfl, rfl, by decide⟩

/-- C17, amended.  For nested dictionaries as `JSON.parse` returns them, no
key of `base` being the name of a property of `Object.prototype`: every path
`compareKeys` reports is the path of keys that lead down `base`, so a key that
exists only in the target is never reported; and if `target'` is `target` with
keys added, at any level and without a change to the entries of `target`, then
every path reported for `target'` is the path of keys `ks, k, more` of `base`
such that the path of `ks, k` is reported for `target`: it is reported for
`target`, or it lies beneath a path reported for `target`.  In particular a
target for which nothing is reported stays complete when keys are added. -/
theorem compareKeys_monotone_below (base target target' : JSVal) (parentKey : JSString)
    (hb : isPlainDict base = true) (hk : noInheritedKey base = true)
    (ht : isPlainDict target = true) (ht' : isPlainDict target' = true)
    (hext : extendsDict target target' = true) :
    ∃ missing missing', compareKeys base target parentKey [] = .ok missing ∧
      compareKeys base target' parentKey [] = .ok missing' ∧
      (∀ p ∈ missing, ∃ keys, hasKeyPath base keys = true ∧ p = pathOf parentKey keys) ∧
      (∀ p ∈ missing', ∃ ks k more, hasKeyPath base (ks ++ k :: more) = true ∧
        p = pathOf parentKey (ks ++ k :: more) ∧ pathOf parentKey (ks ++ [k]) ∈ missing) ∧
      (missing = [] → missing' = []) := by
  obtain ⟨L, hL, hmem⟩ := compareKeys_plain_spec base target parentKey hb hk ht
  obtain ⟨L', hL', hmem'⟩ := compareKeys_plain_spec base target' parentKey hb hk ht'
  have hbelow : ∀ p ∈ L', ∃ ks k more, hasKeyPath base (ks ++ k :: more) = true ∧
      p = pathOf parentKey (ks ++ k :: more) ∧ pathOf parentKey (ks ++ [k]) ∈ L := by
    intro p hp
    obtain ⟨ks, k, b, t', hd, hkb, hkt, rfl⟩ := (hmem' p).1 hp
    have hpath := hasKeyPath_of_descendOwn ks base target' b t' k hd hkb
    rcases descendOwn_extends ks base target target' hb ht ht' hext b t' hd with
      ⟨t, hdt, pt, et⟩ | ⟨pre, k0, post, bn, tn, hks, hdt, hkb0, hkt0⟩
    · exact ⟨ks, k, [], hpath, rfl,
        (hmem _).2 ⟨ks, k, b, t, hdt, hkb, fun h => hkt (extends_keys pt et h), rfl⟩⟩
    · refine ⟨pre, k0, post ++ [k], ?_, ?_, (hmem _).2 ⟨pre, k0, bn, tn, hdt, hkb0, hkt0, rfl⟩⟩
      · rw [hks] at hpath
        simpa using hpath
      · rw [hks]
        simp
  refine ⟨L, L', hL, hL', fun p hp => ?_, hbelow, fun hnil => ?_⟩
  · obtain ⟨ks, k, b, t, hd, hkb, _, rfl⟩ := (hmem p).1 hp
    exact ⟨ks ++ [k], hasKeyPath_of_descendOwn ks base target b t k hd hkb, rfl⟩
  · cases hL'' : L' with
    | nil => rfl
    | cons p rest =>
        obtain ⟨_, _, _, _, _, hin⟩ := hbelow p (by rw [hL'']; exact List.mem_cons_self _ _)
        rw [hnil] at hin
        cases hin

/-- The amended C17 at the base `{"b":{"c":"2"}}`, the target `{}` and the
target `{"b":{}}`. -/
theorem compareKeys_monotone_below_witness :
    isPlainDict childBase = true ∧ noInheritedKey childBase = true ∧
      isPlainDict emptyDict = true ∧ isPlainDict childTarget = true ∧
      extendsDict emptyDict childTarget = true ∧
      ∃ missing missing', compareKeys childBase emptyDict [] [] = .ok missing ∧
        compareKeys childBase childTarget [] [] = .ok missing' ∧
        (∀ p ∈ missing, ∃ keys, hasKeyPath childBase keys = true ∧ p = pathOf [] keys) ∧
        (∀ p ∈ missing', ∃ ks k more, hasKeyPath childBase (ks ++ k :: more) = true ∧
          p = pathOf [] (ks ++ k :: more) ∧ pathOf [] (ks ++ [k]) ∈ missing) ∧
        (missing = [] → missing' = []) :=
  ⟨by decide, by decide, by decide, by decide, by decide,
    compareKeys_monotone_below childBase emptyDict childTarget [] (by decide) (by decide)
      (by decide) (by decide) (by decide)⟩

/-! ## Sorting and the validation outcome -/

theorem sameEntries_symm {a b : JSVal} (h : SameEntries a b) : SameEntries b a := by
  induction h with
  | same v => exact .same v
  | obj own own' hk _ ih =>
      exact .obj own' own (fun key => (hk key).symm) (fun key v v' hv hv' => ih key v' v hv' hv)

theorem sameEntries_typeof {a b : JSVal} (h : SameEntries a b) :
    typeofObject a = typeofObject b := by
  cases h <;> rfl

theorem sameEntries_own {b b' : JSVal} (h : SameEntries b b') (key : JSString) (v : JSVal)
    (hv : getOwn (ownProps b) key = some v) :
    ∃ v', getOwn (ownProps b') key = some v' ∧ SameEntries v v' := by
  cases h with
  | same _ => exact ⟨v, hv, .same v⟩
  | obj own own' hk hvals =>
      cases hg : getOwn own' key with
      | none =>
          have hnone := (hk key).2 hg
          rw [show getOwn own key = some v from hv] at hnone
          cases hnone
      | some v' => exact ⟨v', hg, hvals key v v' hv hg⟩

theorem sameEntries_keys {b b' : JSVal} (h : SameEntries b b') (key : JSString)
    (hk : key ∈ ownKeys b) : key ∈ ownKeys b' := by
  cases h with
  | same _ => exact hk
  | obj own own' hkeys _ =>
      rw [mem_ownKeys_iff] at hk ⊢
      exact fun hn => hk ((hkeys key).2 hn)

theorem sameEntries_hasProp {t t' : JSVal} (h : SameEntries t t') (key : JSString) :
    hasProp t key = hasProp t' key := by
  cases h with
  | same _ => rfl
  | obj own own' hkeys _ =>
      have hown : hasOwn own key = hasOwn own' key := by
        rw [Bool.eq_iff_iff, hasOwn_iff_getOwn, hasOwn_iff_getOwn, not_iff_not]
        exact hkeys key
      simp only [hasProp, hown]

theorem sameEntries_getObject {t t' : JSVal} (h : SameEntries t t') (key : JSString)
    (tv : JSVal) (hv : getObject t key = some tv) :
    ∃ tv', getObject t' key = some tv' ∧ SameEntries tv tv' := by
  cases h with
  | same _ => exact ⟨tv, hv, .same tv⟩
  | obj own own' hkeys hvals =>
      simp only [getObject, findData] at hv ⊢
      cases hg : getOwn own key with
      | none =>
          rw [hg] at hv
          rw [(hkeys key).1 hg]
          exact ⟨tv, hv, .same tv⟩
      | some w =>
          rw [hg] at hv
          obtain ⟨w', hw', hs⟩ := sameEntries_own (.obj own own' hkeys hvals) key w hg
          rw [show getOwn own' key = some w' from hw']
          by_cases hto : typeofObject w = true
          · simp only [hto, if_true] at hv
            cases hv
            refine ⟨w', ?_, hs⟩
            simp [← sameEntries_typeof hs, hto]
          · simp [hto] at hv

theorem sameEntries_descend : ∀ (ks : List JSString) (b t b' t' : JSVal),
    SameEntries b b' → SameEntries t t' → ∀ x y, descend b t ks = some (x, y) →
      ∃ x' y', descend b' t' ks = some (x', y') ∧ SameEntries x x' ∧ SameEntries y y'
  | [], b, t, b', t', hb, ht, x, y, h => by
      rw [descend_nil] at h
      cases h
      exact ⟨b', t', descend_nil b' t', hb, ht⟩
  | key :: ks, b, t, b', t', hb, ht, x, y, h => by
      cases b with
      | obj own proto =>
          obtain ⟨bv, tv, hg, hh, hto, hgo, hd⟩ := descend_cons.1 h
          obtain ⟨bv', hg', hsb⟩ := sameEntries_own hb key bv hg
          obtain ⟨tv', hgo', hst⟩ := sameEntries_getObject ht key tv hgo
          obtain ⟨x', y', hd', hx, hy⟩ := sameEntries_descend ks bv tv bv' tv' hsb hst x y hd
          have hb' : ∃ own' proto', b' = .obj own' proto' := by
            cases hb with
            | same _ => exact ⟨own, proto, rfl⟩
            | obj _ own' _ _ => exact ⟨own', none, rfl⟩
          obtain ⟨own', proto', rfl⟩ := hb'
          refine ⟨x', y', descend_cons.2 ⟨bv', tv', hg', ?_, ?_, hgo', hd'⟩, hx, hy⟩
          · rw [← sameEntries_hasProp ht key]
            exact hh
          · rw [← sameEntries_typeof hsb]
            exact hto
      | _ => simp [descend] at h

theorem sameEntries_reported {b t b' t' : JSVal} (hb : SameEntries b b')
    (ht : SameEntries t t') (parentKey p : JSString) (h : Reported b t parentKey p) :
    Reported b' t' parentKey p := by
  obtain ⟨ks, k, x, y, hd, hk, hh, hp⟩ := h
  obtain ⟨x', y', hd', hx, hy⟩ := sameEntries_descend ks b t b' t' hb ht x y hd
  exact ⟨ks, k, x', y', hd', sameEntries_keys hx k hk, by rw [← sameEntries_hasProp hy k]; exact hh,
    hp⟩

mutual
theorem sortObject_same : ∀ (v : JSVal), isPlainDict v = true → noProtoKey v = true →
    ∃ S, sortObject v = .ok S ∧ SameEntries v S
  | .obj own none, hp, hn => by
      obtain ⟨_, _, hnodup, hplain⟩ := isPlainDict_obj hp
      rename_i own0 heq
      cases heq
      simp only [noProtoKey] at hn
      obtain ⟨r, hr, hkeys, hvals⟩ := sortProps_same own hplain hn
      have hperm := sortByKey_perm r
      have hnp : ∀ e ∈ sortByKey r, e.1 ≠ protoKey := by
        intro e he
        have hmem : e.1 ∈ own.map Prod.fst := by
          rw [← hkeys]
          exact List.mem_map.2 ⟨e, hperm.mem_iff.1 he, rfl⟩
        obtain ⟨e0, he0, h0⟩ := List.mem_map.1 hmem
        rw [← h0]
        exact ((noProtoKeyProps_iff own).1 hn e0 he0).1
      have hrn : (r.map Prod.fst).Nodup := by rw [hkeys]; exact hnodup
      obtain ⟨out, hout, hpo⟩ := foldl_setProp_fresh (sortByKey r) hnp [] none
        (by simpa using (hperm.map Prod.fst).nodup_iff.2 hrn)
      have hpr : out.Perm r := by simpa using hpo.trans hperm
      have hon : (out.map Prod.fst).Nodup := (hpr.map Prod.fst).nodup_iff.2 hrn
      refine ⟨.obj out none, by rw [sortObject_obj, hr]; exact congrArg Except.ok hout, ?_⟩
      refine .obj own out (fun key => ?_) (fun key v v' hv hv' => ?_)
      · have h1 := hasOwn_iff_getOwn own key
        have h2 := hasOwn_iff_getOwn out key
        rw [hasOwn_iff, ← hkeys] at h1
        rw [hasOwn_iff, (hpr.map Prod.fst).mem_iff] at h2
        exact not_iff_not.1 (h1.symm.trans h2)
      · exact hvals key v v' hv (getOwn_of_mem hrn (hpr.mem_iff.1 (getOwn_mem hv')))
  | .obj _ (some _), hp, _ => by simp [isPlainDict] at hp
  | .null, hp, _ => by simp [isPlainDict] at hp
  | .bool _, hp, _ => by simp [isPlainDict] at hp
  | .num _, hp, _ => by simp [isPlainDict] at hp
  | .str _, hp, _ => by simp [isPlainDict] at hp
  | .arr _, hp, _ => by simp [isPlainDict] at hp
  | .objectPrototype, hp, _ => by simp [isPlainDict] at hp
  | .arrayPrototype, hp, _ => by simp [isPlainDict] at hp
theorem sortProps_same : ∀ (l : Props), plainProps l = true → noProtoKeyProps l = true →
    ∃ r, sortProps l = .ok r ∧ r.map Prod.fst = l.map Prod.fst ∧
      ∀ key v v', getOwn l key = some v → getOwn r key = some v' → SameEntries v v'
  | [], _, _ => ⟨[], by rw [sortProps]; rfl, rfl, by simp [getOwn]⟩
  | (k, w) :: rest, hp, hn => by
      have hw := (plainProps_iff _).1 hp _ (List.mem_cons_self _ _)
      have hp' : plainProps rest = true :=
        (plainProps_iff _).2 (fun e he => (plainProps_iff _).1 hp e (List.mem_cons_of_mem _ he))
      have hn' := (noProtoKeyProps_iff _).1 hn
      have hnr : noProtoKeyProps rest = true :=
        (noProtoKeyProps_iff _).2 (fun e he => hn' e (List.mem_cons_of_mem _ he))
      obtain ⟨rest', hrest', hkeys, hvals⟩ := sortProps_same rest hp' hnr
      have hstep : ∃ w', (if typeofObject w = true then sortObject w else pure w) = .ok w' ∧
          SameEntries w w' := by
        by_cases hto : typeofObject w = true
        · have hpw : isPlainDict w = true := plain_of_typeofObject hw hto
          obtain ⟨S, hS, hsame⟩ := sortObject_same w hpw (hn' _ (List.mem_cons_self _ _)).2
          exact ⟨S, by simp [hto, hS], hsame⟩
        · exact ⟨w, by simp [hto]; rfl, .same w⟩
      obtain ⟨w', hw', hsame⟩ := hstep
      refine ⟨(k, w') :: rest', ?_, by simp [hkeys], fun key v v' hv hv' => ?_⟩
      · rw [sortProps_cons, hw', hrest']
        rfl
      · by_cases hk : k = key
        · simp only [getOwn, hk, if_true] at hv hv'
          cases hv
          cases hv'
          exact hsame
        · simp only [getOwn, hk, if_false] at hv hv'
          exact hvals key v v' hv hv'
end

/-- C18 fails on the code.  For the base `{"a":"x"}` and the target
`{"__proto__":{"a":"y"}}`, both nested dictionaries with string leaves,
`compareKeys` reports `a`; `sortObject` turns the target into an empty object
whose prototype is `{"a":"y"}`, and for the sorted pair `compareKeys` reports
nothing. -/
theorem compareKeys_sorted_proto_target_differs :
    isPlainDict singleBase = true ∧ isPlainDict protoTarget = true ∧
      compareKeys singleBase protoTarget [] [] = .ok [utf16 "a"] ∧
      sortObject singleBase = .ok singleBase ∧
      sortObject protoTarget = .ok (.obj [] (some (.obj [(utf16 "a", leaf "y")] none))) ∧
      compareKeys singleBase (.obj [] (some (.obj [(utf16 "a", leaf "y")] none))) [] [] =
        .ok [] :=
  ⟨by decide, by decide, rfl, rfl, rfl, rfl⟩

/-- The equivalence of C18 without the key `__proto__`.  For every pair of
nested dictionaries `base` and `target` as `JSON.parse` returns them, neither
holding a key `__proto__` at any level:
`sortObject` returns for both, `compareKeys` returns for the pair and for the
sorted pair, the same paths are reported for the sorted pair as for the pair,
and so nothing is reported for the one exactly when nothing is reported for
the other. -/
theorem compareKeys_sorted_same_reports (base target : JSVal) (parentKey : JSString)
    (hb : isPlainDict base = true) (hbp : noProtoKey base = true)
    (ht : isPlainDict target = true) (htp : noProtoKey target = true) :
    ∃ sortedBase sortedTarget missing missing',
      sortObject base = .ok sortedBase ∧ sortObject target = .ok sortedTarget ∧
      compareKeys base target parentKey [] = .ok missing ∧
      compareKeys sortedBase sortedTarget parentKey [] = .ok missing' ∧
      (∀ p, p ∈ missing' ↔ p ∈ missing) ∧ (missing' = [] ↔ missing = []) := by
  obtain ⟨sb, hsb, hsameb⟩ := sortObject_same base hb hbp
  obtain ⟨st, hst, hsamet⟩ := sortObject_same target ht htp
  obtain ⟨L, hL, hmem⟩ := compareKeys_spec base (isDict_of_plain base hb) hbp target
    (isDict_of_plain target ht) parentKey []
  obtain ⟨L', hL', hmem'⟩ := compareKeys_spec sb (goodObj_isDict (sortObject_good hsb))
    (goodObj_noProtoKey (sortObject_good hsb)) st (goodObj_isDict (sortObject_good hst))
    parentKey []
  have hiff : ∀ p, p ∈ L' ↔ p ∈ L := by
    intro p
    rw [hmem, hmem']
    exact ⟨sameEntries_reported (sameEntries_symm hsameb) (sameEntries_symm hsamet) parentKey p,
      sameEntries_reported hsameb hsamet parentKey p⟩
  refine ⟨sb, st, L, L', hsb, hst, by simpa using hL, by simpa using hL', hiff, ?_⟩
  constructor
  · intro h
    exact List.eq_nil_iff_forall_not_mem.2 (fun p hp => by
      have := (hiff p).2 hp
      rw [h] at this
      cases this)
  · intro h
    exact List.eq_nil_iff_forall_not_mem.2 (fun p hp => by
      have := (hiff p).1 hp
      rw [h] at this
      cases this)

/-- The equivalence of C18 at the base `{"a":"1","b":{"c":"2"}}` and the target
`{"a":"x"}`. -/
theorem compareKeys_sorted_same_reports_witness :
    isPlainDict nestedBase = true ∧ noProtoKey nestedBase = true ∧
      isPlainDict flatTarget = true ∧ noProtoKey flatTarget = true ∧
      ∃ sortedBase sortedTarget missing missing',
        sortObject nestedBase = .ok sortedBase ∧ sortObject flatTarget = .ok sortedTarget ∧
        compareKeys nestedBase flatTarget [] [] = .ok missing ∧
        compareKeys sortedBase sortedTarget [] [] = .ok missing' ∧
        (∀ p, p ∈ missing' ↔ p ∈ missing) ∧ (missing' = [] ↔ missing = []) :=
  ⟨by decide, by decide, by decide, by decide,
    compareKeys_sorted_same_reports nestedBase flatTarget [] (by decide) (by decide) (by decide)
      (by decide)⟩

/-! ## An absent key whose value is a nested dictionary -/

theorem compareProps_append (t : JSVal) (parentKey : JSString) :
    ∀ (pre post : Props) (missingKeys : List JSString),
      compareProps (pre ++ post) t parentKey missingKeys =
        (compareProps pre t parentKey missingKeys >>= fun missing =>
          compareProps post t parentKey missing)
  | [], post, missingKeys => by
      rw [List.nil_append, compareProps]
      rfl
  | (key, baseVal) :: rest, post, missingKeys => by
      rw [List.cons_append, compareProps_cons, compareProps_cons, bind_assoc]
      congr 1
      funext present
      rw [bind_assoc]
      congr 1
      funext missing
      exact compareProps_append t parentKey rest post missing

/-- C9 fails on the code for a key that is the name of a property of
`Object.prototype`.  The base `{"toString":{"c":"2"}}` maps `toString` to a
nested dictionary, the target `{}` has no key at all, `sortObject` returns
both as they are, and `compareKeys` reports nothing: neither `toString` nor a
path beneath it, because `"toString" in {}` is true. -/
theorem compareKeys_inherited_parent_unreported :
    getOwn (ownProps toStringParent) (utf16 "toString") =
        some (.obj [(utf16 "c", leaf "2")] none) ∧
      isPlainDict toStringParent = true ∧ ownKeys emptyDict = [] ∧
      sortObject toStringParent = .ok toStringParent ∧
      sortObject emptyDict = .ok emptyDict ∧
      hasProp emptyDict (utf16 "toString") = true ∧
      compareKeys toStringParent emptyDict [] [] = .ok [] :=
  ⟨rfl, by decide, rfl, rfl, rfl, by decide, rfl⟩

/-- The rule of C9 on every other key.  When the target, an object as
`JSON.parse` returns it, has no key `key`, and `key` is not the name of a
property of `Object.prototype`, the property `key` of the base contributes its
own path and nothing else, whatever its value is, a nested dictionary
included: `compareKeys` returns what the properties before it give, then the
path of `key`, then what the properties after it give. -/
theorem compareKeys_absent_key_own_path (before after : Props) (key : JSString)
    (baseVal : JSVal) (baseProto : Option JSVal) (targetOwn : Props) (parentKey : JSString)
    (missingKeys : List JSString) (habsent : getOwn targetOwn key = none)
    (hname : key ∉ objectPrototypeNames) :
    compareKeys (.obj (before ++ (key, baseVal) :: after) baseProto) (.obj targetOwn none)
        parentKey missingKeys =
      (compareProps before (.obj targetOwn none) parentKey missingKeys >>= fun missing =>
        compareProps after (.obj targetOwn none) parentKey
          (missing ++ [fullKey parentKey key])) := by
  have hown : hasOwn targetOwn key = false := by
    cases h : hasOwn targetOwn key with
    | false => rfl
    | true => exact absurd habsent ((hasOwn_iff_getOwn targetOwn key).1 h)
  have hprop : hasProperty (.obj targetOwn none) key = .ok false := by
    show Except.ok (hasProp (.obj targetOwn none) key) = _
    rw [hasProp_plain hname, hown]
  rw [compareKeys_obj, compareProps_append]
  congr 1
  funext missing
  rw [compareProps_cons, hprop]
  rfl

/-- The rule of C9 at the base `{"a":"1","b":{"c":"2"}}` and the target
`{"a":"x"}`: the property `b` contributes the path `b` only, and the missing
keys are `["b"]`. -/
theorem compareKeys_absent_key_own_path_witness :
    getOwn [(utf16 "a", leaf "x")] (utf16 "b") = none ∧
      utf16 "b" ∉ objectPrototypeNames ∧
      compareKeys nestedBase flatTarget [] [] =
        (compareProps [(utf16 "a", leaf "1")] flatTarget [] [] >>= fun missing =>
          compareProps [] flatTarget [] (missing ++ [fullKey [] (utf16 "b")])) ∧
      compareKeys nestedBase flatTarget [] [] = .ok [utf16 "b"] :=
  ⟨rfl, by decide,
    compareKeys_absent_key_own_path [(utf16 "a", leaf "1")] [] (utf16 "b")
      (.obj [(utf16 "c", leaf "2")] none) none [(utf16 "a", leaf "x")] [] [] rfl
      (by decide),
    rfl⟩

end TranslationTool
